import Mathlib

/-!
# Binary search tree library (BST/bst.c): embedding and verification

The C library stores elements as opaque fixed-size byte blocks ordered by a
caller-supplied comparison function.  The embedding below represents

* a nullable `Node*` by the inductive type `Node α` (`Node.null` is `NULL`),
  an element block of `element_size` bytes by a value of type `α`;
* `struct BST` by the record `BST α`, a nullable `BST*` by `Option (BST α)`,
  a nullable element pointer by `Option α`;
* `size_t` by `Nat` with explicit reduction modulo `2 ^ 64`, `int` by `Int`
  with explicit 32-bit wrapping where the code does arithmetic;
* in-place mutation by state passing: a function that mutates `*bst` returns the
  new record next to its C return value.
-/

namespace BstC

/-! ## Data model -/

/-- Nullable pointer to a `struct Node` (fields in the order of the C struct). -/
inductive Node (α : Type) where
  | null : Node α
  | mk (data : α) (left : Node α) (right : Node α) : Node α
  deriving DecidableEq, Repr

/-- The record `struct BST`. -/
structure BST (α : Type) where
  root : Node α
  element_size : Nat
  size : Nat
  compare : α → α → Int

/-- Number of values of `size_t` (64-bit). -/
def SIZE_MOD : Nat := 2 ^ 64

/-- The statement `bst->size++` on a `size_t`. -/
def size_inc (n : Nat) : Nat := (n + 1) % SIZE_MOD

/-- The statement `bst->size--` on a `size_t`. -/
def size_dec (n : Nat) : Nat := (n + (SIZE_MOD - 1)) % SIZE_MOD

/-- The test `node == NULL`. -/
def Node.isNull {α : Type} : Node α → Bool
  | .null => true
  | .mk _ _ _ => false

/-! ## Internal functions -/

/-- Function `_create_node`: a fresh leaf holding a copy of `data`, or `NULL` when one of the
two allocations fails (`alloc = false`). -/
def _create_node {α : Type} (alloc : Bool) (data : α) (_element_size : Nat) : Node α :=
  if alloc then .mk data .null .null else .null

/-- Function `_insert_recursive`: returns the new subtree root and the updated `*bst`. -/
def _insert_recursive {α : Type} (alloc : Bool) (bst : BST α) (node : Node α) (data : α) :
    Node α × BST α :=
  match node with
  | .null =>
    let new_node := _create_node alloc data bst.element_size
    if new_node.isNull then (new_node, bst)
    else (new_node, { bst with size := size_inc bst.size })
  | .mk d l r =>
    let cmp := bst.compare data d
    if cmp < 0 then
      let res := _insert_recursive alloc bst l data
      (.mk d res.1 r, res.2)
    else if cmp > 0 then
      let res := _insert_recursive alloc bst r data
      (.mk d l res.1, res.2)
    else (.mk d l r, bst)

/-- Function `_find_min_node`: the leftmost node of the subtree (`NULL` for `NULL`). -/
def _find_min_node {α : Type} : Node α → Node α
  | .null => .null
  | .mk d .null r => .mk d .null r
  | .mk _ (.mk ld ll lr) _ => _find_min_node (.mk ld ll lr)

/-- Function `_find_max_node`: the rightmost node of the subtree (`NULL` for `NULL`). -/
def _find_max_node {α : Type} : Node α → Node α
  | .null => .null
  | .mk d l .null => .mk d l .null
  | .mk _ _ (.mk rd rl rr) => _find_max_node (.mk rd rl rr)

/-- Function `_destroy_node`: returns the new subtree root and the updated `*bst`.  In the
two-children case the right subtree is not `NULL`, so `_find_min_node` returns a
node; the `NULL` branch of that match is never taken. -/
def _destroy_node {α : Type} (bst : BST α) (node : Node α) (key : α) : Node α × BST α :=
  match node with
  | .null => (.null, bst)
  | .mk d l r =>
    let cmp := bst.compare key d
    if cmp < 0 then
      let res := _destroy_node bst l key
      (.mk d res.1 r, res.2)
    else if cmp > 0 then
      let res := _destroy_node bst r key
      (.mk d l res.1, res.2)
    else if l.isNull && r.isNull then
      (.null, { bst with size := size_dec bst.size })
    else if r.isNull then
      (l, { bst with size := size_dec bst.size })
    else if l.isNull then
      (r, { bst with size := size_dec bst.size })
    else
      match _find_min_node r with
      | .mk m _ _ =>
        let res := _destroy_node bst r m
        (.mk m l res.1, res.2)
      | .null => (.mk d l r, bst)

/-- The loop of `bst_search`, started at `current`. -/
def search_loop {α : Type} (compare : α → α → Int) (current : Node α) (key : α) : Bool :=
  match current with
  | .null => false
  | .mk d l r =>
    let cmp := compare key d
    if cmp < 0 then search_loop compare l key
    else if cmp > 0 then search_loop compare r key
    else true

/-! ## Public API -/

/-- Function `bst_create`: `NULL` when the element size is zero, the comparator is absent or
the allocation fails. -/
def bst_create {α : Type} (alloc : Bool) (element_size : Nat)
    (comparefunc : Option (α → α → Int)) : Option (BST α) :=
  match comparefunc with
  | none => none
  | some f =>
    if element_size = 0 then none
    else if alloc then
      some { root := .null, element_size := element_size, size := 0, compare := f }
    else none

/-- Function `bst_insert`: the returned flag and the tree after the call. -/
def bst_insert {α : Type} (alloc : Bool) (bst : Option (BST α)) (element_data : Option α) :
    Bool × Option (BST α) :=
  match bst, element_data with
  | some b, some v =>
    let old_size := b.size
    let res := _insert_recursive alloc b b.root v
    let b1 : BST α := { res.2 with root := res.1 }
    (decide (b1.size > old_size), some b1)
  | _, _ => (false, bst)

/-- Function `bst_remove`: the returned flag and the tree after the call. -/
def bst_remove {α : Type} (bst : Option (BST α)) (element_data : Option α) :
    Bool × Option (BST α) :=
  match bst, element_data with
  | some b, some v =>
    let old_size := b.size
    let res := _destroy_node b b.root v
    let b1 : BST α := { res.2 with root := res.1 }
    (decide (b1.size < old_size), some b1)
  | _, _ => (false, bst)

/-- Function `bst_search`. -/
def bst_search {α : Type} (bst : Option (BST α)) (key : Option α) : Bool :=
  match bst, key with
  | some b, some k => search_loop b.compare b.root k
  | _, _ => false

/-- The field access `node->data` on a nullable pointer (`none` for `NULL`). -/
def Node.data? {α : Type} : Node α → Option α
  | .null => none
  | .mk d _ _ => some d

/-- Function `bst_min`: pointer to the minimum, `NULL` (`none`) for an absent or empty tree. -/
def bst_min {α : Type} (bst : Option (BST α)) : Option α :=
  match bst with
  | none => none
  | some b => if b.root.isNull then none else (_find_min_node b.root).data?

/-- Function `bst_max`: pointer to the maximum, `NULL` (`none`) for an absent or empty tree. -/
def bst_max {α : Type} (bst : Option (BST α)) : Option α :=
  match bst with
  | none => none
  | some b => if b.root.isNull then none else (_find_max_node b.root).data?

/-- Function `bst_empty`. -/
def bst_empty {α : Type} (bst : Option (BST α)) : Bool :=
  match bst with
  | none => true
  | some b => decide (b.size = 0)

/-- Function `bst_size`. -/
def bst_size {α : Type} (bst : Option (BST α)) : Nat :=
  match bst with
  | none => 0
  | some b => b.size

/-! ## k-th smallest (elements read as `int`) -/

/-- Wrapping of an integer into the range of `int` (32-bit, as on the usual targets). -/
def wrap_int (z : Int) : Int := (z + 2 ^ 31) % 2 ^ 32 - 2 ^ 31

/-- Conversion of an `int` to `size_t` (reduction modulo `2 ^ 64`). -/
def to_size_t (k : Int) : Nat := (k % 2 ^ 64).toNat

/-- Function `get_kth`: the returned value and the value of `*k` after the call. -/
def get_kth (node : Node Int) (k : Int) : Int × Int :=
  match node with
  | .null => (-1, k)
  | .mk d l r =>
    let left_res := get_kth l k
    if left_res.1 ≠ -1 then (left_res.1, left_res.2)
    else
      let k1 := wrap_int (left_res.2 - 1)
      if k1 = 0 then (d, k1)
      else get_kth r k1

/-- The guard of `get_kthSmallest`: `!bst || k == 0 || bst->size < k`, the last
comparison being made in `size_t`. -/
def kth_guard (bst : Option (BST Int)) (k : Int) : Bool :=
  match bst with
  | none => true
  | some b => decide (k = 0) || decide (b.size < to_size_t k)

/-- Function `get_kthSmallest`. -/
def get_kthSmallest (bst : Option (BST Int)) (k : Int) : Int :=
  match bst with
  | none => -1
  | some b => if kth_guard (some b) k then -1 else (get_kth b.root k).1

/-! ## Specification vocabulary -/

/-- In-order sequence of the values of a subtree. -/
def inorder {α : Type} : Node α → List α
  | .null => []
  | .mk d l r => inorder l ++ d :: inorder r

/-- Number of nodes reachable from a link. -/
def numNodes {α : Type} : Node α → Nat
  | .null => 0
  | .mk _ l r => numNodes l + numNodes r + 1

/-- BST order invariant: at every node, every value of the left subtree compares
strictly less and every value of the right subtree strictly greater than the value
of the node. -/
def bst_ordered {α : Type} (compare : α → α → Int) : Node α → Prop
  | .null => True
  | .mk d l r =>
    (∀ x ∈ inorder l, compare x d < 0) ∧ (∀ x ∈ inorder r, compare x d > 0) ∧
      bst_ordered compare l ∧ bst_ordered compare r

instance bst_ordered_decidable {α : Type} (compare : α → α → Int) :
    (n : Node α) → Decidable (bst_ordered compare n)
  | .null => isTrue trivial
  | .mk d l r =>
    have := bst_ordered_decidable compare l
    have := bst_ordered_decidable compare r
    by unfold bst_ordered; exact inferInstance

/-- The comparator contract assumed by the tree: a strict total order reported by
sign (zero exactly on equal elements, antisymmetric, transitive). -/
structure StrictTotalOrder {α : Type} (compare : α → α → Int) : Prop where
  eq_iff : ∀ a b, compare a b = 0 ↔ a = b
  antisymm : ∀ a b, compare a b < 0 ↔ compare b a > 0
  trans : ∀ a b c, compare a b < 0 → compare b c < 0 → compare a c < 0

/-- A call of the mutating API. -/
inductive Op (α : Type) where
  | insert (v : α) : Op α
  | remove (v : α) : Op α
  deriving DecidableEq, Repr

/-- One API call applied to a tree handle (allocation succeeds). -/
def applyOp {α : Type} (s : Option (BST α)) : Op α → Option (BST α)
  | .insert v => (bst_insert true s (some v)).2
  | .remove v => (bst_remove s (some v)).2

/-- A finite sequence of API calls applied from left to right. -/
def runOps {α : Type} (s : Option (BST α)) (ops : List (Op α)) : Option (BST α) :=
  ops.foldl applyOp s

/-- Effect of one call on the set of values logically present: a value enters on
insert and leaves on remove. -/
def liveStep {α : Type} [DecidableEq α] (s : Finset α) : Op α → Finset α
  | .insert v => insert v s
  | .remove v => s.erase v

/-- The set of values logically present after a sequence of calls. -/
def liveSet {α : Type} [DecidableEq α] (ops : List (Op α)) : Finset α :=
  ops.foldl liveStep ∅

/-- The value was inserted by some call of the sequence and no later call of the
sequence removes it. -/
def insertedNotRemoved {α : Type} (ops : List (Op α)) (key : α) : Prop :=
  ∃ before after, ops = before ++ Op.insert key :: after ∧ Op.remove key ∉ after

/-- Ascending comparator on integers. -/
def cmp_int (a b : Int) : Int := if a < b then -1 else if a > b then 1 else 0

/-- The tree obtained from `bst_create` by inserting the given integers in order. -/
def buildInts (vs : List Int) : Option (BST Int) :=
  runOps (bst_create true 4 (some cmp_int)) (vs.map Op.insert)

/-- The record reached by inserting 5, 3, 8, 1, 4, 7, 9 into an empty tree of `int`. -/
def sampleTree : BST Int :=
  { root := .mk 5 (.mk 3 (.mk 1 .null .null) (.mk 4 .null .null))
      (.mk 8 (.mk 7 .null .null) (.mk 9 .null .null)),
    element_size := 4, size := 7, compare := cmp_int }

/-! ## Validation (elements read as `int`) -/

/-- The constant `LLONG_MIN` of a 64-bit `long long`. -/
def LLONG_MIN : Int := -2 ^ 63

/-- The constant `LLONG_MAX` of a 64-bit `long long`. -/
def LLONG_MAX : Int := 2 ^ 63 - 1

/-- The constant `INT_MIN` of a 32-bit `int`. -/
def INT_MIN : Int := -2 ^ 31

/-- The constant `INT_MAX` of a 32-bit `int`. -/
def INT_MAX : Int := 2 ^ 31 - 1

/-- The macro `MIN(a, b)`, that is `((a) > (b) ? (b) : (a))`. -/
def MIN (a b : Int) : Int := if a > b then b else a

/-- The macro `MAX(a, b)`, that is `((a) > (b) ? (a) : (b))`. -/
def MAX (a b : Int) : Int := if a > b then a else b

/-- The enumerator `IN_ORDER` of `TraverseOrder`. -/
def IN_ORDER : Int := 0

/-- The enumerator `PRE_ORDER` of `TraverseOrder`. -/
def PRE_ORDER : Int := 1

/-- The enumerator `POST_ORDER` of `TraverseOrder`. -/
def POST_ORDER : Int := 2

/-- The record `struct Pair` used by the post-order validation. -/
structure Pair where
  min : Int
  max : Int
  deriving DecidableEq, Repr

/-- Function `pre_order_traverse`: range check with the open interval `(left, right)`. -/
def pre_order_traverse (node : Node Int) (left right : Int) : Bool :=
  match node with
  | .null => true
  | .mk x l r =>
    decide (left < x) && decide (x < right) &&
      pre_order_traverse l left x && pre_order_traverse r x right

/-- Function `in_order_traverse`: the returned flag and the value of `*pre` after the
call. -/
def in_order_traverse (node : Node Int) (pre : Int) : Bool × Int :=
  match node with
  | .null => (true, pre)
  | .mk x l r =>
    let res := in_order_traverse l pre
    if !res.1 then (false, res.2)
    else if x ≤ res.2 then (false, res.2)
    else in_order_traverse r x

/-- Function `post_order_traverse`: the `(min, max)` pair of the subtree, or the failure
pair `(LLONG_MIN, LLONG_MAX)`. -/
def post_order_traverse (node : Node Int) : Pair :=
  match node with
  | .null => { min := LLONG_MAX, max := LLONG_MIN }
  | .mk x l r =>
    let pl := post_order_traverse l
    let pr := post_order_traverse r
    if x ≤ pl.max ∨ x ≥ pr.min then { min := LLONG_MIN, max := LLONG_MAX }
    else { min := MIN pl.min x, max := MAX pr.max x }

/-- Function `is_bst_valid`; the strategy selector is the integer value of the enum. -/
def is_bst_valid (bst : Option (BST Int)) (order : Int) : Bool :=
  match bst with
  | none => false
  | some b =>
    if order > 2 ∨ order < 0 then false
    else if order = PRE_ORDER then pre_order_traverse b.root LLONG_MIN LLONG_MAX
    else if order = IN_ORDER then (in_order_traverse b.root LLONG_MIN).1
    else if order = POST_ORDER then decide ((post_order_traverse b.root).max ≠ LLONG_MAX)
    else false

/-! ## Depth queries -/

/-- Function `get_max_depth`; the additions are made in `int`. -/
def get_max_depth {α : Type} : Node α → Int
  | .null => 0
  | .mk _ l r =>
    let left_depth := wrap_int (get_max_depth l + 1)
    let right_depth := wrap_int (get_max_depth r + 1)
    MAX left_depth right_depth

/-- Function `get_min_depth`; the additions are made in `int`. -/
def get_min_depth {α : Type} : Node α → Int
  | .null => 0
  | .mk _ l r =>
    let left_depth := wrap_int (get_min_depth l + 1)
    let right_depth := wrap_int (get_min_depth r + 1)
    if MIN left_depth right_depth = 1 then MAX left_depth right_depth
    else MIN left_depth right_depth

/-- Function `get_maxDepth`. -/
def get_maxDepth {α : Type} (bst : Option (BST α)) : Int :=
  match bst with
  | none => -1
  | some b => if b.root.isNull then -1 else get_max_depth b.root

/-- Function `get_minDepth`. -/
def get_minDepth {α : Type} (bst : Option (BST α)) : Int :=
  match bst with
  | none => -1
  | some b => if b.root.isNull then -1 else get_min_depth b.root

/-- The loop of `bst_find_key`, started at `current`: the node that compares equal to
the key on its search path, `NULL` when there is none. -/
def find_key_loop {α : Type} (compare : α → α → Int) (current : Node α) (key : α) : Node α :=
  match current with
  | .null => .null
  | .mk d l r =>
    let cmp := compare key d
    if cmp < 0 then find_key_loop compare l key
    else if cmp > 0 then find_key_loop compare r key
    else .mk d l r

/-! ## Specification vocabulary for validation, depth and removal -/

/-- Every stored value is a 32-bit `int`. -/
def int_values (n : Node Int) : Prop := ∀ x ∈ inorder n, INT_MIN ≤ x ∧ x ≤ INT_MAX

instance int_values_decidable (n : Node Int) : Decidable (int_values n) := by
  unfold int_values; exact inferInstance

/-- Natural ascending order invariant on integers: every node is strictly greater
than every value of its left subtree and strictly less than every value of its right
subtree. -/
def int_ordered : Node Int → Prop
  | .null => True
  | .mk d l r =>
    (∀ x ∈ inorder l, x < d) ∧ (∀ x ∈ inorder r, d < x) ∧ int_ordered l ∧ int_ordered r

instance int_ordered_decidable : (n : Node Int) → Decidable (int_ordered n)
  | .null => isTrue trivial
  | .mk d l r =>
    have := int_ordered_decidable l
    have := int_ordered_decidable r
    by unfold int_ordered; exact inferInstance

/-- Order with respect to the immediate children only: at every node the value of
the left child, when there is one, is smaller and the value of the right child, when
there is one, is greater. -/
def locally_ordered : Node Int → Prop
  | .null => True
  | .mk d l r =>
    (∀ x ∈ l.data?, x < d) ∧ (∀ x ∈ r.data?, d < x) ∧
      locally_ordered l ∧ locally_ordered r

instance locally_ordered_decidable : (n : Node Int) → Decidable (locally_ordered n)
  | .null => isTrue trivial
  | .mk d l r =>
    have := locally_ordered_decidable l
    have := locally_ordered_decidable r
    by unfold locally_ordered; exact inferInstance

/-- Number of nodes on the longest path from the link down to a leaf, by the
recursion `depth(null) = 0`, `depth(node) = 1 + max(depth(left), depth(right))`. -/
def height {α : Type} : Node α → Nat
  | .null => 0
  | .mk _ l r => 1 + max (height l) (height r)

/-- For every leaf (node without children) below the link, the number of nodes on
the path from the link to that leaf. -/
def leafDepths {α : Type} : Node α → List Nat
  | .null => []
  | .mk _ l r =>
    if l.isNull && r.isNull then [1]
    else (leafDepths l ++ leafDepths r).map (fun d => d + 1)

/-- The subtree without its leftmost node, the right child of that node taking its
place. -/
def removeLeftmost {α : Type} : Node α → Node α
  | .null => .null
  | .mk _ .null r => r
  | .mk d (.mk ld ll lr) r => .mk d (removeLeftmost (.mk ld ll lr)) r

/-- The tree in which the subtree rooted at the node found for the key is replaced by
another subtree, every other node staying in place. -/
def replaceAtKey {α : Type} (compare : α → α → Int) (n : Node α) (key : α) (s : Node α) :
    Node α :=
  match n with
  | .null => .null
  | .mk d l r =>
    if compare key d < 0 then .mk d (replaceAtKey compare l key s) r
    else if compare key d > 0 then .mk d l (replaceAtKey compare r key s)
    else s

/-- Descending comparator on integers. -/
def cmp_int_desc (a b : Int) : Int := if a > b then -1 else if a < b then 1 else 0

/-- A tree in which every node is ordered with respect to its parent and children,
while the value 7 in the left subtree of the root 5 exceeds the root. -/
def deepViolation : BST Int :=
  { root := .mk 5 (.mk 3 .null (.mk 7 .null .null)) (.mk 8 .null .null),
    element_size := 4, size := 4, compare := cmp_int }

/-- An ordered tree holding both extreme values of `int`. -/
def extremeTree : BST Int :=
  { root := .mk 0 (.mk INT_MIN .null .null) (.mk INT_MAX .null .null),
    element_size := 4, size := 3, compare := cmp_int }

/-! ## Comparator facts -/

theorem cmp_int_strictTotalOrder : StrictTotalOrder cmp_int := by
  refine ⟨?_, ?_, ?_⟩
  · intro a b
    unfold cmp_int
    split_ifs <;> constructor <;> intro _ <;> first | omega | contradiction
  · intro a b
    unfold cmp_int
    split_ifs <;> constructor <;> intro _ <;> omega
  · intro a b c
    unfold cmp_int
    split_ifs <;> intro _ _ <;> omega

theorem StrictTotalOrder.refl {α : Type} {compare : α → α → Int}
    (h : StrictTotalOrder compare) (a : α) : compare a a = 0 :=
  (h.eq_iff a a).2 rfl

theorem StrictTotalOrder.ne_of_lt {α : Type} {compare : α → α → Int}
    (h : StrictTotalOrder compare) {a b : α} (hab : compare a b < 0) : a ≠ b := by
  intro e
  have := (h.eq_iff a b).2 e
  omega

theorem StrictTotalOrder.ne_of_gt {α : Type} {compare : α → α → Int}
    (h : StrictTotalOrder compare) {a b : α} (hab : compare a b > 0) : a ≠ b := by
  intro e
  have := (h.eq_iff a b).2 e
  omega

theorem StrictTotalOrder.not_lt_of_gt {α : Type} {compare : α → α → Int}
    (_h : StrictTotalOrder compare) {a b : α} (hab : compare a b > 0) : ¬ compare a b < 0 := by
  omega

theorem StrictTotalOrder.eq_of_not_lt_not_gt {α : Type} {compare : α → α → Int}
    (h : StrictTotalOrder compare) {a b : α} (h1 : ¬ compare a b < 0) (h2 : ¬ compare a b > 0) :
    a = b :=
  (h.eq_iff a b).1 (by omega)

/-! ## Order invariant and in-order sequence -/

theorem bst_ordered_iff_pairwise {α : Type} {compare : α → α → Int}
    (h : StrictTotalOrder compare) (n : Node α) :
    bst_ordered compare n ↔ (inorder n).Pairwise (fun a b => compare a b < 0) := by
  induction n with
  | null => simp [bst_ordered, inorder]
  | mk d l r ihl ihr =>
    simp only [bst_ordered, inorder, List.pairwise_append, List.pairwise_cons, ihl, ihr]
    constructor
    · rintro ⟨h1, h2, h3, h4⟩
      refine ⟨h3, ⟨fun x hx => (h.antisymm d x).2 (h2 x hx), h4⟩, ?_⟩
      intro a ha b hb
      rcases List.mem_cons.1 hb with rfl | hb
      · exact h1 a ha
      · exact h.trans a d b (h1 a ha) ((h.antisymm d b).2 (h2 b hb))
    · rintro ⟨h3, ⟨h2, h4⟩, h5⟩
      exact ⟨fun x hx => h5 x hx d (List.mem_cons_self _ _),
        fun x hx => (h.antisymm d x).1 (h2 x hx), h3, h4⟩

theorem inorder_nodup {α : Type} {compare : α → α → Int}
    (h : StrictTotalOrder compare) {n : Node α} (ho : bst_ordered compare n) :
    (inorder n).Nodup := by
  have hp := (bst_ordered_iff_pairwise h n).1 ho
  exact hp.imp (fun hab => h.ne_of_lt hab)

theorem length_inorder {α : Type} (n : Node α) : (inorder n).length = numNodes n := by
  induction n with
  | null => rfl
  | mk d l r ihl ihr => simp [inorder, numNodes, ihl, ihr]; omega

/-! ## Search -/

theorem search_loop_iff_mem {α : Type} {compare : α → α → Int}
    (h : StrictTotalOrder compare) {n : Node α} (ho : bst_ordered compare n) (key : α) :
    search_loop compare n key = true ↔ key ∈ inorder n := by
  induction n with
  | null => simp [search_loop, inorder]
  | mk d l r ihl ihr =>
    obtain ⟨h1, h2, h3, h4⟩ := ho
    simp only [search_loop, inorder, List.mem_append, List.mem_cons]
    by_cases c1 : compare key d < 0
    · rw [if_pos c1, ihl h3]
      constructor
      · exact fun hm => Or.inl hm
      · rintro (hm | rfl | hm)
        · exact hm
        · exact absurd rfl (h.ne_of_lt c1)
        · have := h2 key hm
          omega
    · rw [if_neg c1]
      by_cases c2 : compare key d > 0
      · rw [if_pos c2, ihr h4]
        constructor
        · exact fun hm => Or.inr (Or.inr hm)
        · rintro (hm | rfl | hm)
          · have := h1 key hm
            omega
          · exact absurd rfl (h.ne_of_gt c2)
          · exact hm
      · rw [if_neg c2]
        simp [h.eq_of_not_lt_not_gt c1 c2]

/-! ## Insertion -/

theorem insert_null {α : Type} (bst : BST α) (v : α) :
    _insert_recursive true bst .null v =
      (.mk v .null .null, { bst with size := size_inc bst.size }) := by
  simp [_insert_recursive, _create_node, Node.isNull]

theorem insert_found {α : Type} (alloc : Bool) (bst : BST α) (n : Node α) (v : α)
    (hs : search_loop bst.compare n v = true) :
    _insert_recursive alloc bst n v = (n, bst) := by
  induction n with
  | null => simp [search_loop] at hs
  | mk d l r ihl ihr =>
    simp only [search_loop] at hs
    simp only [_insert_recursive]
    by_cases c1 : bst.compare v d < 0
    · rw [if_pos c1] at hs
      rw [if_pos c1, ihl hs]
    · rw [if_neg c1] at hs
      rw [if_neg c1]
      by_cases c2 : bst.compare v d > 0
      · rw [if_pos c2] at hs
        rw [if_pos c2, ihr hs]
      · rw [if_neg c2]

theorem insert_fresh_state {α : Type} (bst : BST α) (n : Node α) (v : α)
    (hs : search_loop bst.compare n v = false) :
    (_insert_recursive true bst n v).2 = { bst with size := size_inc bst.size } := by
  induction n with
  | null => rw [insert_null]
  | mk d l r ihl ihr =>
    simp only [search_loop] at hs
    simp only [_insert_recursive]
    by_cases c1 : bst.compare v d < 0
    · rw [if_pos c1] at hs
      rw [if_pos c1]
      exact ihl hs
    · rw [if_neg c1] at hs
      rw [if_neg c1]
      by_cases c2 : bst.compare v d > 0
      · rw [if_pos c2] at hs
        rw [if_pos c2]
        exact ihr hs
      · rw [if_neg c2] at hs
        exact absurd hs (by simp)

theorem insert_fresh_numNodes {α : Type} (bst : BST α) (n : Node α) (v : α)
    (hs : search_loop bst.compare n v = false) :
    numNodes (_insert_recursive true bst n v).1 = numNodes n + 1 := by
  induction n with
  | null => rw [insert_null]; rfl
  | mk d l r ihl ihr =>
    simp only [search_loop] at hs
    simp only [_insert_recursive]
    by_cases c1 : bst.compare v d < 0
    · rw [if_pos c1] at hs
      rw [if_pos c1]
      simp only [numNodes, ihl hs]
      omega
    · rw [if_neg c1] at hs
      rw [if_neg c1]
      by_cases c2 : bst.compare v d > 0
      · rw [if_pos c2] at hs
        rw [if_pos c2]
        simp only [numNodes, ihr hs]
        omega
      · rw [if_neg c2] at hs
        exact absurd hs (by simp)

theorem insert_fresh_inorder {α : Type} (bst : BST α) (h : StrictTotalOrder bst.compare)
    (n : Node α) (ho : bst_ordered bst.compare n) (v : α)
    (hs : search_loop bst.compare n v = false) :
    ∃ xs ys, inorder n = xs ++ ys ∧
      inorder (_insert_recursive true bst n v).1 = xs ++ v :: ys ∧
      (∀ x ∈ xs, bst.compare x v < 0) ∧ (∀ y ∈ ys, bst.compare v y < 0) := by
  induction n with
  | null =>
    refine ⟨[], [], rfl, ?_, by simp, by simp⟩
    rw [insert_null]; rfl
  | mk d l r ihl ihr =>
    obtain ⟨h1, h2, h3, h4⟩ := ho
    simp only [search_loop] at hs
    simp only [_insert_recursive]
    by_cases c1 : bst.compare v d < 0
    · rw [if_pos c1] at hs
      rw [if_pos c1]
      obtain ⟨xs, ys, e1, e2, hx, hy⟩ := ihl h3 hs
      refine ⟨xs, ys ++ d :: inorder r, ?_, ?_, hx, ?_⟩
      · simp [inorder, e1]
      · simp [inorder, e2]
      · intro y hy1
        rcases List.mem_append.1 hy1 with hy1 | hy1
        · exact hy y hy1
        · rcases List.mem_cons.1 hy1 with rfl | hy1
          · exact c1
          · exact h.trans v d y c1 ((h.antisymm d y).2 (h2 y hy1))
    · rw [if_neg c1] at hs
      rw [if_neg c1]
      by_cases c2 : bst.compare v d > 0
      · rw [if_pos c2] at hs
        rw [if_pos c2]
        obtain ⟨xs, ys, e1, e2, hx, hy⟩ := ihr h4 hs
        have hdv : bst.compare d v < 0 := (h.antisymm d v).2 c2
        refine ⟨inorder l ++ d :: xs, ys, ?_, ?_, ?_, hy⟩
        · simp [inorder, e1]
        · simp [inorder, e2]
        · intro x hx1
          rcases List.mem_append.1 hx1 with hx1 | hx1
          · exact h.trans x d v (h1 x hx1) hdv
          · rcases List.mem_cons.1 hx1 with rfl | hx1
            · exact hdv
            · exact hx x hx1
      · rw [if_neg c2] at hs
        exact absurd hs (by simp)

theorem mem_inorder_insert {α : Type} (alloc : Bool) (bst : BST α) (n : Node α) (v x : α)
    (hx : x ∈ inorder (_insert_recursive alloc bst n v).1) : x = v ∨ x ∈ inorder n := by
  induction n with
  | null =>
    cases alloc <;>
      simp [_insert_recursive, _create_node, Node.isNull, inorder] at hx
    exact Or.inl hx
  | mk d l r ihl ihr =>
    simp only [_insert_recursive] at hx
    by_cases c1 : bst.compare v d < 0
    · rw [if_pos c1] at hx
      simp only [inorder, List.mem_append, List.mem_cons] at hx ⊢
      rcases hx with hx | hx | hx
      · rcases ihl hx with e | e
        · exact Or.inl e
        · exact Or.inr (Or.inl e)
      · exact Or.inr (Or.inr (Or.inl hx))
      · exact Or.inr (Or.inr (Or.inr hx))
    · rw [if_neg c1] at hx
      by_cases c2 : bst.compare v d > 0
      · rw [if_pos c2] at hx
        simp only [inorder, List.mem_append, List.mem_cons] at hx ⊢
        rcases hx with hx | hx | hx
        · exact Or.inr (Or.inl hx)
        · exact Or.inr (Or.inr (Or.inl hx))
        · rcases ihr hx with e | e
          · exact Or.inl e
          · exact Or.inr (Or.inr (Or.inr e))
      · rw [if_neg c2] at hx
        exact Or.inr hx

theorem insert_ordered {α : Type} (alloc : Bool) (bst : BST α)
    (n : Node α) (ho : bst_ordered bst.compare n) (v : α) :
    bst_ordered bst.compare (_insert_recursive alloc bst n v).1 := by
  induction n with
  | null =>
    cases alloc <;>
      simp [_insert_recursive, _create_node, Node.isNull, bst_ordered, inorder]
  | mk d l r ihl ihr =>
    obtain ⟨h1, h2, h3, h4⟩ := ho
    simp only [_insert_recursive]
    by_cases c1 : bst.compare v d < 0
    · rw [if_pos c1]
      refine ⟨?_, h2, ihl h3, h4⟩
      intro x hx
      rcases mem_inorder_insert alloc bst l v x hx with rfl | hx
      · exact c1
      · exact h1 x hx
    · rw [if_neg c1]
      by_cases c2 : bst.compare v d > 0
      · rw [if_pos c2]
        refine ⟨h1, ?_, h3, ihr h4⟩
        intro x hx
        rcases mem_inorder_insert alloc bst r v x hx with rfl | hx
        · exact c2
        · exact h2 x hx
      · rw [if_neg c2]
        exact ⟨h1, h2, h3, h4⟩

/-! ## Removal -/

theorem find_min_spec {α : Type} (d : α) (l r : Node α) :
    ∃ m mr rest, _find_min_node (.mk d l r) = .mk m .null mr ∧
      inorder (.mk d l r) = m :: rest := by
  induction l generalizing d r with
  | null => exact ⟨d, r, inorder r, rfl, rfl⟩
  | mk ld ll lr ihl _ =>
    obtain ⟨m, mr, rest, e1, e2⟩ := ihl ld lr
    refine ⟨m, mr, rest ++ d :: inorder r, ?_, ?_⟩
    · rw [_find_min_node]; exact e1
    · rw [inorder, e2]; rfl

theorem find_max_spec {α : Type} (d : α) (l r : Node α) :
    ∃ m ml rest, _find_max_node (.mk d l r) = .mk m ml .null ∧
      inorder (.mk d l r) = rest ++ [m] := by
  induction r generalizing d l with
  | null => exact ⟨d, l, inorder l, rfl, rfl⟩
  | mk rd rl rr _ ihr =>
    obtain ⟨m, ml, rest, e1, e2⟩ := ihr rd rl
    refine ⟨m, ml, inorder l ++ d :: rest, ?_, ?_⟩
    · rw [_find_max_node]; exact e1
    · rw [inorder, e2]; simp

theorem destroy_not_found {α : Type} (bst : BST α) (n : Node α) (key : α)
    (hs : search_loop bst.compare n key = false) :
    _destroy_node bst n key = (n, bst) := by
  induction n with
  | null => rfl
  | mk d l r ihl ihr =>
    simp only [search_loop] at hs
    simp only [_destroy_node]
    by_cases c1 : bst.compare key d < 0
    · rw [if_pos c1] at hs
      rw [if_pos c1, ihl hs]
    · rw [if_neg c1] at hs
      rw [if_neg c1]
      by_cases c2 : bst.compare key d > 0
      · rw [if_pos c2] at hs
        rw [if_pos c2, ihr hs]
      · rw [if_neg c2] at hs
        exact absurd hs (by simp)

theorem destroy_found {α : Type} [DecidableEq α] (bst : BST α)
    (h : StrictTotalOrder bst.compare) (n : Node α) (ho : bst_ordered bst.compare n)
    (key : α) (hm : key ∈ inorder n) :
    (_destroy_node bst n key).2 = { bst with size := size_dec bst.size } ∧
      inorder (_destroy_node bst n key).1 = (inorder n).erase key ∧
      numNodes (_destroy_node bst n key).1 + 1 = numNodes n := by
  induction n generalizing key with
  | null => simp [inorder] at hm
  | mk d l r ihl ihr =>
    have ho1 := ho
    obtain ⟨h1, h2, h3, h4⟩ := ho1
    have hs := (search_loop_iff_mem h ho key).2 hm
    simp only [search_loop] at hs
    simp only [_destroy_node]
    by_cases c1 : bst.compare key d < 0
    · rw [if_pos c1] at hs
      rw [if_pos c1]
      have hml := (search_loop_iff_mem h h3 key).1 hs
      obtain ⟨e1, e2, e3⟩ := ihl h3 key hml
      refine ⟨e1, ?_, ?_⟩
      · simp only [inorder, e2]
        rw [List.erase_append_left _ hml]
      · simp only [numNodes]; omega
    · rw [if_neg c1] at hs
      rw [if_neg c1]
      by_cases c2 : bst.compare key d > 0
      · rw [if_pos c2] at hs
        rw [if_pos c2]
        have hmr := (search_loop_iff_mem h h4 key).1 hs
        obtain ⟨e1, e2, e3⟩ := ihr h4 key hmr
        have hnl : key ∉ inorder l := fun hx => by
          have := h1 key hx
          omega
        refine ⟨e1, ?_, ?_⟩
        · simp only [inorder, e2]
          rw [List.erase_append_right _ hnl, List.erase_cons_tail]
          simpa using (h.ne_of_gt c2).symm
        · simp only [numNodes]; omega
      · rw [if_neg c2]
        have hkd : key = d := h.eq_of_not_lt_not_gt c1 c2
        subst hkd
        have hnl : key ∉ inorder l := fun hx => h.ne_of_lt (h1 key hx) rfl
        have herase : (inorder (Node.mk key l r)).erase key = inorder l ++ inorder r := by
          rw [inorder, List.erase_append_right _ hnl, List.erase_cons_head]
        rw [herase]
        cases l with
        | null =>
          cases r with
          | null => simp [Node.isNull, inorder, numNodes]
          | mk rd rl rr => simp [Node.isNull, inorder, numNodes]
        | mk ld ll lr =>
          cases r with
          | null => simp [Node.isNull, inorder, numNodes]
          | mk rd rl rr =>
            obtain ⟨m, mr, rest, f1, f2⟩ := find_min_spec rd rl rr
            have hmem : m ∈ inorder (Node.mk rd rl rr) := by rw [f2]; simp
            obtain ⟨e1, e2, e3⟩ := ihr h4 m hmem
            simp only [Node.isNull, Bool.and_self, Bool.false_eq_true, if_false, f1]
            refine ⟨e1, ?_, ?_⟩
            · rw [inorder, e2, f2, List.erase_cons_head]
            · simp only [numNodes] at e3 ⊢; omega

theorem destroy_inorder_subset {α : Type} [DecidableEq α] (bst : BST α)
    (h : StrictTotalOrder bst.compare) (n : Node α) (ho : bst_ordered bst.compare n)
    (key x : α) (hx : x ∈ inorder (_destroy_node bst n key).1) : x ∈ inorder n := by
  by_cases hm : key ∈ inorder n
  · rw [(destroy_found bst h n ho key hm).2.1] at hx
    exact List.mem_of_mem_erase hx
  · have hs : search_loop bst.compare n key = false := by
      cases hb : search_loop bst.compare n key with
      | false => rfl
      | true => exact absurd ((search_loop_iff_mem h ho key).1 hb) hm
    rw [destroy_not_found bst n key hs] at hx
    exact hx

theorem destroy_ordered {α : Type} [DecidableEq α] (bst : BST α)
    (h : StrictTotalOrder bst.compare) (n : Node α) (ho : bst_ordered bst.compare n)
    (key : α) : bst_ordered bst.compare (_destroy_node bst n key).1 := by
  by_cases hm : key ∈ inorder n
  · rw [bst_ordered_iff_pairwise h, (destroy_found bst h n ho key hm).2.1]
    exact ((bst_ordered_iff_pairwise h n).1 ho).sublist (List.erase_sublist _ _)
  · have hs : search_loop bst.compare n key = false := by
      cases hb : search_loop bst.compare n key with
      | false => rfl
      | true => exact absurd ((search_loop_iff_mem h ho key).1 hb) hm
    rw [destroy_not_found bst n key hs]
    exact ho

/-! ## The size counter -/

theorem size_inc_eq {n : Nat} (h : n + 1 < SIZE_MOD) : size_inc n = n + 1 :=
  Nat.mod_eq_of_lt h

theorem size_dec_eq {n : Nat} (h0 : 0 < n) (h : n < SIZE_MOD) : size_dec n + 1 = n := by
  unfold size_dec SIZE_MOD at *
  omega

theorem not_mem_iff_search_false {α : Type} {compare : α → α → Int}
    (h : StrictTotalOrder compare) {n : Node α} (ho : bst_ordered compare n) (key : α) :
    key ∉ inorder n ↔ search_loop compare n key = false := by
  rw [← search_loop_iff_mem h ho key]
  cases search_loop compare n key <;> simp

/-! ## Single calls of the public API -/

/-- C3. On a tree satisfying the order invariant (comparator a strict total order,
size counter below its maximum, allocation succeeding), `bst_insert` returns true
exactly when the value is not in the tree; in that case the size grows by one and the
new in-order sequence is the old one with the value placed between the elements
smaller and the elements greater than it. -/
theorem bst_insert_fresh_iff {α : Type} (b : BST α) (v : α)
    (hcmp : StrictTotalOrder b.compare) (hord : bst_ordered b.compare b.root)
    (hsize : b.size + 1 < SIZE_MOD) :
    ((bst_insert true (some b) (some v)).1 = true ↔ v ∉ inorder b.root) ∧
    (v ∉ inorder b.root →
      ∃ b1, (bst_insert true (some b) (some v)).2 = some b1 ∧
        b1.size = b.size + 1 ∧ bst_size (some b1) = bst_size (some b) + 1 ∧
        ∃ xs ys, inorder b.root = xs ++ ys ∧ inorder b1.root = xs ++ v :: ys ∧
          (∀ x ∈ xs, b.compare x v < 0) ∧ (∀ y ∈ ys, b.compare v y < 0)) := by
  have key : v ∉ inorder b.root →
      ∃ b1, (bst_insert true (some b) (some v)).2 = some b1 ∧
        b1.size = b.size + 1 ∧ bst_size (some b1) = bst_size (some b) + 1 ∧
        ∃ xs ys, inorder b.root = xs ++ ys ∧ inorder b1.root = xs ++ v :: ys ∧
          (∀ x ∈ xs, b.compare x v < 0) ∧ (∀ y ∈ ys, b.compare v y < 0) := by
    intro hv
    have hs := (not_mem_iff_search_false hcmp hord v).1 hv
    have e := insert_fresh_state b b.root v hs
    refine ⟨_, rfl, ?_, ?_, insert_fresh_inorder b hcmp b.root hord v hs⟩
    · show (_insert_recursive true b b.root v).2.size = b.size + 1
      rw [e]; exact size_inc_eq hsize
    · show (_insert_recursive true b b.root v).2.size = b.size + 1
      rw [e]; exact size_inc_eq hsize
  refine ⟨?_, key⟩
  constructor
  · intro hr hv
    have hs := (search_loop_iff_mem hcmp hord v).2 hv
    have e := insert_found true b b.root v hs
    simp [bst_insert, e] at hr
  · intro hv
    obtain ⟨b1, e1, e2, -⟩ := key hv
    have : (bst_insert true (some b) (some v)).1
        = decide ((_insert_recursive true b b.root v).2.size > b.size) := rfl
    rw [this]
    have e3 : (_insert_recursive true b b.root v).2.size = b1.size := by
      have : some ({ (_insert_recursive true b b.root v).2 with
          root := (_insert_recursive true b b.root v).1 } : BST α) = some b1 := e1
      rw [← Option.some.inj this]
    rw [e3, e2]
    simp

/-- C5. On a tree satisfying the order invariant whose size counter equals its node
count (comparator a strict total order), `bst_remove` returns true exactly when the
key is in the tree; in that case the size decreases by one, whichever of the four
cases applies, and the new in-order sequence is the old one with the key erased. -/
theorem bst_remove_present_iff {α : Type} [DecidableEq α] (b : BST α) (key : α)
    (hcmp : StrictTotalOrder b.compare) (hord : bst_ordered b.compare b.root)
    (hcount : b.size = numNodes b.root) (hsize : b.size < SIZE_MOD) :
    ((bst_remove (some b) (some key)).1 = true ↔ key ∈ inorder b.root) ∧
    (key ∈ inorder b.root →
      ∃ b1, (bst_remove (some b) (some key)).2 = some b1 ∧
        b1.size + 1 = b.size ∧ bst_size (some b1) + 1 = bst_size (some b) ∧
        inorder b1.root = (inorder b.root).erase key ∧
        numNodes b1.root + 1 = numNodes b.root) := by
  have hpos : key ∈ inorder b.root → 0 < b.size := by
    intro hm
    rw [hcount, ← length_inorder]
    exact List.length_pos_of_mem hm
  have main : key ∈ inorder b.root →
      ∃ b1, (bst_remove (some b) (some key)).2 = some b1 ∧
        b1.size + 1 = b.size ∧ bst_size (some b1) + 1 = bst_size (some b) ∧
        inorder b1.root = (inorder b.root).erase key ∧
        numNodes b1.root + 1 = numNodes b.root := by
    intro hm
    obtain ⟨e1, e2, e3⟩ := destroy_found b hcmp b.root hord key hm
    refine ⟨_, rfl, ?_, ?_, e2, e3⟩
    · show (_destroy_node b b.root key).2.size + 1 = b.size
      rw [e1]; exact size_dec_eq (hpos hm) hsize
    · show (_destroy_node b b.root key).2.size + 1 = b.size
      rw [e1]; exact size_dec_eq (hpos hm) hsize
  refine ⟨?_, main⟩
  constructor
  · intro hr
    by_contra hm
    have hs := (not_mem_iff_search_false hcmp hord key).1 hm
    simp [bst_remove, destroy_not_found b b.root key hs] at hr
  · intro hm
    obtain ⟨e1, -, -⟩ := destroy_found b hcmp b.root hord key hm
    have : (bst_remove (some b) (some key)).1
        = decide ((_destroy_node b b.root key).2.size < b.size) := rfl
    rw [this, e1]
    have := size_dec_eq (hpos hm) hsize
    simp only [decide_eq_true_eq]
    omega

/-- C6. On a tree satisfying the order invariant (comparator a strict total order),
removing a key that is not in the tree returns false and leaves the whole record as
it was: same nodes, same values, same size, hence the same answer to every search. -/
theorem bst_remove_absent_noop {α : Type} (b : BST α) (key : α)
    (hcmp : StrictTotalOrder b.compare) (hord : bst_ordered b.compare b.root)
    (habsent : key ∉ inorder b.root) :
    bst_remove (some b) (some key) = (false, some b) ∧
      bst_size (bst_remove (some b) (some key)).2 = bst_size (some b) ∧
      ∀ k, bst_search (bst_remove (some b) (some key)).2 k = bst_search (some b) k := by
  have hs := (not_mem_iff_search_false hcmp hord key).1 habsent
  have e : bst_remove (some b) (some key) = (false, some b) := by
    simp [bst_remove, destroy_not_found b b.root key hs]
  rw [e]
  exact ⟨rfl, rfl, fun _ => rfl⟩

/-- C7. Whenever the comparator reports equality with a node on the search path of
the value (that is, `bst_search` finds it), `bst_insert` returns false and leaves the
whole record as it was, for any comparator and whether or not allocation would
succeed; size and every search result are therefore unchanged. -/
theorem bst_insert_duplicate_noop {α : Type} (alloc : Bool) (b : BST α) (v : α)
    (hdup : bst_search (some b) (some v) = true) :
    bst_insert alloc (some b) (some v) = (false, some b) ∧
      bst_size (bst_insert alloc (some b) (some v)).2 = bst_size (some b) ∧
      ∀ k, bst_search (bst_insert alloc (some b) (some v)).2 k = bst_search (some b) k := by
  have e : bst_insert alloc (some b) (some v) = (false, some b) := by
    simp [bst_insert, insert_found alloc b b.root v hdup]
  rw [e]
  exact ⟨rfl, rfl, fun _ => rfl⟩

/-! ## Sequences of calls -/

theorem insertedNotRemoved_nil {α : Type} (key : α) : ¬ insertedNotRemoved ([] : List (Op α)) key := by
  rintro ⟨before, after, e, -⟩
  cases before <;> simp at e

theorem insertedNotRemoved_cons_insert {α : Type} (v : α) (ops : List (Op α)) (key : α) :
    insertedNotRemoved (Op.insert v :: ops) key ↔
      (key = v ∧ Op.remove key ∉ ops) ∨ insertedNotRemoved ops key := by
  constructor
  · rintro ⟨before, after, e, hn⟩
    cases before with
    | nil =>
      simp only [List.nil_append, List.cons.injEq, Op.insert.injEq] at e
      obtain ⟨e1, e2⟩ := e
      subst e2
      exact Or.inl ⟨e1.symm, hn⟩
    | cons o before =>
      simp only [List.cons_append, List.cons.injEq] at e
      exact Or.inr ⟨before, after, e.2, hn⟩
  · rintro (⟨rfl, hn⟩ | ⟨before, after, e, hn⟩)
    · exact ⟨[], ops, rfl, hn⟩
    · exact ⟨Op.insert v :: before, after, by rw [e]; rfl, hn⟩

theorem insertedNotRemoved_cons_remove {α : Type} (v : α) (ops : List (Op α)) (key : α) :
    insertedNotRemoved (Op.remove v :: ops) key ↔ insertedNotRemoved ops key := by
  constructor
  · rintro ⟨before, after, e, hn⟩
    cases before with
    | nil => simp at e
    | cons o before =>
      simp only [List.cons_append, List.cons.injEq] at e
      exact ⟨before, after, e.2, hn⟩
  · rintro ⟨before, after, e, hn⟩
    exact ⟨Op.remove v :: before, after, by rw [e]; rfl, hn⟩

theorem insert_state_fields {α : Type} (bst : BST α) (n : Node α) (v : α) :
    (_insert_recursive true bst n v).2.compare = bst.compare := by
  cases hs : search_loop bst.compare n v with
  | true => rw [insert_found true bst n v hs]
  | false => rw [insert_fresh_state bst n v hs]

theorem destroy_state_fields {α : Type} [DecidableEq α] (bst : BST α)
    (h : StrictTotalOrder bst.compare) (n : Node α) (ho : bst_ordered bst.compare n) (key : α) :
    (_destroy_node bst n key).2.compare = bst.compare := by
  cases hs : search_loop bst.compare n key with
  | true => rw [(destroy_found bst h n ho key ((search_loop_iff_mem h ho key).1 hs)).1]
  | false => rw [destroy_not_found bst n key hs]

/-- One call from a state satisfying the invariants: the handle stays present, the
comparator is kept, the order invariant is kept, membership changes as the call
says, and the size counter keeps counting the nodes as long as it cannot wrap. -/
theorem applyOp_spec {α : Type} [DecidableEq α] (b : BST α) (op : Op α)
    (hcmp : StrictTotalOrder b.compare) (hord : bst_ordered b.compare b.root) :
    ∃ b1, applyOp (some b) op = some b1 ∧ b1.compare = b.compare ∧
      bst_ordered b1.compare b1.root ∧
      (∀ x, x ∈ inorder b1.root ↔
        match op with
        | .insert v => x = v ∨ x ∈ inorder b.root
        | .remove v => x ≠ v ∧ x ∈ inorder b.root) ∧
      (b.size = numNodes b.root → numNodes b.root + 1 < SIZE_MOD →
        b1.size = numNodes b1.root) ∧
      numNodes b1.root ≤ numNodes b.root + 1 := by
  cases op with
  | insert v =>
    refine ⟨{ (_insert_recursive true b b.root v).2 with
      root := (_insert_recursive true b b.root v).1 }, rfl, ?_, ?_, ?_, ?_, ?_⟩
    · exact insert_state_fields b b.root v
    · show bst_ordered (_insert_recursive true b b.root v).2.compare _
      rw [insert_state_fields]
      exact insert_ordered true b b.root hord v
    · intro x
      show x ∈ inorder (_insert_recursive true b b.root v).1 ↔ _
      cases hs : search_loop b.compare b.root v with
      | true =>
        rw [insert_found true b b.root v hs]
        have hv := (search_loop_iff_mem hcmp hord v).1 hs
        constructor
        · exact fun hx => Or.inr hx
        · rintro (rfl | hx)
          · exact hv
          · exact hx
      | false =>
        obtain ⟨xs, ys, e1, e2, -, -⟩ := insert_fresh_inorder b hcmp b.root hord v hs
        rw [e1, e2]
        simp only [List.mem_append, List.mem_cons]
        tauto
    · intro h1 h2
      show (_insert_recursive true b b.root v).2.size
        = numNodes (_insert_recursive true b b.root v).1
      cases hs : search_loop b.compare b.root v with
      | true => rw [insert_found true b b.root v hs]; exact h1
      | false =>
        rw [insert_fresh_state b b.root v hs, insert_fresh_numNodes b b.root v hs]
        show size_inc b.size = _
        rw [size_inc_eq (by omega), h1]
    · show numNodes (_insert_recursive true b b.root v).1 ≤ _
      cases hs : search_loop b.compare b.root v with
      | true => rw [insert_found true b b.root v hs]; exact Nat.le_succ _
      | false => rw [insert_fresh_numNodes b b.root v hs]
  | remove v =>
    refine ⟨{ (_destroy_node b b.root v).2 with
      root := (_destroy_node b b.root v).1 }, rfl, ?_, ?_, ?_, ?_, ?_⟩
    · exact destroy_state_fields b hcmp b.root hord v
    · show bst_ordered (_destroy_node b b.root v).2.compare _
      rw [destroy_state_fields b hcmp b.root hord v]
      exact destroy_ordered b hcmp b.root hord v
    · intro x
      show x ∈ inorder (_destroy_node b b.root v).1 ↔ _
      by_cases hm : v ∈ inorder b.root
      · rw [(destroy_found b hcmp b.root hord v hm).2.1]
        exact (inorder_nodup hcmp hord).mem_erase_iff
      · have hs := (not_mem_iff_search_false hcmp hord v).1 hm
        rw [destroy_not_found b b.root v hs]
        constructor
        · intro hx
          exact ⟨fun e => hm (e ▸ hx), hx⟩
        · exact fun hx => hx.2
    · intro h1 h2
      show (_destroy_node b b.root v).2.size = numNodes (_destroy_node b b.root v).1
      by_cases hm : v ∈ inorder b.root
      · obtain ⟨e1, -, e3⟩ := destroy_found b hcmp b.root hord v hm
        rw [e1]
        show size_dec b.size = _
        have hpos : 0 < b.size := by
          rw [h1, ← length_inorder]
          exact List.length_pos_of_mem hm
        have := size_dec_eq hpos (by omega)
        omega
      · have hs := (not_mem_iff_search_false hcmp hord v).1 hm
        rw [destroy_not_found b b.root v hs]
        exact h1
    · show numNodes (_destroy_node b b.root v).1 ≤ _
      by_cases hm : v ∈ inorder b.root
      · have := (destroy_found b hcmp b.root hord v hm).2.2
        omega
      · have hs := (not_mem_iff_search_false hcmp hord v).1 hm
        rw [destroy_not_found b b.root v hs]
        exact Nat.le_succ _

theorem runOps_spec {α : Type} [DecidableEq α] (ops : List (Op α)) :
    ∀ b : BST α, StrictTotalOrder b.compare → bst_ordered b.compare b.root →
    ∃ b1, runOps (some b) ops = some b1 ∧ b1.compare = b.compare ∧
      b1.element_size = b.element_size ∧
      bst_ordered b1.compare b1.root ∧
      (∀ key, key ∈ inorder b1.root ↔
        insertedNotRemoved ops key ∨ (key ∈ inorder b.root ∧ Op.remove key ∉ ops)) ∧
      (inorder b1.root).toFinset = ops.foldl liveStep (inorder b.root).toFinset ∧
      (b.size = numNodes b.root → numNodes b.root + ops.length < SIZE_MOD →
        b1.size = numNodes b1.root) ∧
      numNodes b1.root ≤ numNodes b.root + ops.length := by
  induction ops with
  | nil =>
    intro b _ hord
    refine ⟨b, rfl, rfl, rfl, hord, ?_, rfl, fun h _ => h, Nat.le_refl _⟩
    intro key
    simp [insertedNotRemoved_nil]
  | cons op ops ih =>
    intro b hcmp hord
    obtain ⟨b1, e1, c1, o1, m1, s1, n1⟩ := applyOp_spec b op hcmp hord
    obtain ⟨b2, e2, c2, z2, o2, m2, f2, s2, n2⟩ := ih b1 (c1 ▸ hcmp) o1
    have z1 : b1.element_size = b.element_size := by
      cases op with
      | insert v =>
        have : b1 = { (_insert_recursive true b b.root v).2 with
            root := (_insert_recursive true b b.root v).1 } := (Option.some.inj e1).symm
        rw [this]
        show (_insert_recursive true b b.root v).2.element_size = _
        cases hs : search_loop b.compare b.root v with
        | true => rw [insert_found true b b.root v hs]
        | false => rw [insert_fresh_state b b.root v hs]
      | remove v =>
        have : b1 = { (_destroy_node b b.root v).2 with
            root := (_destroy_node b b.root v).1 } := (Option.some.inj e1).symm
        rw [this]
        show (_destroy_node b b.root v).2.element_size = _
        cases hs : search_loop b.compare b.root v with
        | true => rw [(destroy_found b hcmp b.root hord v ((search_loop_iff_mem hcmp hord v).1 hs)).1]
        | false => rw [destroy_not_found b b.root v hs]
    refine ⟨b2, ?_, c2.trans c1, z2.trans z1, o2, ?_, ?_, ?_, ?_⟩
    · rw [runOps, List.foldl_cons, e1]; exact e2
    · intro key
      rw [m2 key, m1 key]
      cases op with
      | insert v =>
        rw [insertedNotRemoved_cons_insert]
        simp only [List.mem_cons, reduceCtorEq, false_or]
        tauto
      | remove v =>
        rw [insertedNotRemoved_cons_remove]
        simp only [List.mem_cons, Op.remove.injEq]
        tauto
    · rw [f2, List.foldl_cons]
      congr 1
      ext x
      rw [List.mem_toFinset, m1 x]
      cases op with
      | insert v => simp [liveStep]
      | remove v => simp [liveStep]
    · intro h1 h2
      simp only [List.length_cons] at h2
      exact s2 (s1 h1 (by omega)) (by omega)
    · simp only [List.length_cons]
      omega

theorem runOps_create {α : Type} [DecidableEq α] (compare : α → α → Int)
    (hcmp : StrictTotalOrder compare) (element_size : Nat) (hes : element_size ≠ 0)
    (ops : List (Op α)) :
    ∃ b1, runOps (bst_create true element_size (some compare)) ops = some b1 ∧
      b1.compare = compare ∧ bst_ordered compare b1.root ∧
      (∀ key, key ∈ inorder b1.root ↔ insertedNotRemoved ops key) ∧
      (inorder b1.root).toFinset = liveSet ops ∧
      (ops.length < SIZE_MOD → b1.size = numNodes b1.root) := by
  have hc : bst_create true element_size (some compare) =
      some { root := .null, element_size := element_size, size := 0, compare := compare } := by
    simp [bst_create, hes]
  obtain ⟨b1, e, c, -, o, m, f, s, -⟩ :=
    runOps_spec ops
      { root := .null, element_size := element_size, size := 0, compare := compare }
      hcmp trivial
  refine ⟨b1, by rw [hc]; exact e, c, ?_, ?_, ?_, ?_⟩
  · have o1 := o
    rw [c] at o1
    exact o1
  · intro key
    rw [m key]
    simp [inorder]
  · rw [f]; rfl
  · intro hl
    exact s rfl (by simpa [numNodes] using hl)

/-- C1. For every strict-total-order comparator and every finite sequence of
`bst_insert` and `bst_remove` calls applied to the tree returned by `bst_create`
(allocation succeeding), the resulting tree satisfies the BST order invariant at
every node and its in-order sequence is strictly increasing; the two formulations
are equivalent on every tree. -/
theorem order_invariant_reachable {α : Type} [DecidableEq α] (compare : α → α → Int)
    (hcmp : StrictTotalOrder compare) (element_size : Nat) (hes : element_size ≠ 0)
    (ops : List (Op α)) :
    (∃ b, runOps (bst_create true element_size (some compare)) ops = some b ∧
      b.compare = compare ∧ bst_ordered compare b.root ∧
      (inorder b.root).Pairwise (fun x y => compare x y < 0)) ∧
    (∀ n : Node α,
      bst_ordered compare n ↔ (inorder n).Pairwise (fun x y => compare x y < 0)) := by
  obtain ⟨b, e, c, o, -⟩ := runOps_create compare hcmp element_size hes ops
  exact ⟨⟨b, e, c, o, (bst_ordered_iff_pairwise hcmp b.root).1 o⟩,
    fun n => bst_ordered_iff_pairwise hcmp n⟩

theorem order_invariant_reachable_witness :
    StrictTotalOrder cmp_int ∧ (4 : Nat) ≠ 0 ∧
    ∃ b, runOps (bst_create true 4 (some cmp_int))
        [Op.insert 5, Op.insert 3, Op.insert 8, Op.remove 5, Op.insert 4] = some b ∧
      bst_ordered cmp_int b.root ∧
      (inorder b.root).Pairwise (fun x y => cmp_int x y < 0) :=
  ⟨cmp_int_strictTotalOrder, by decide,
    match (order_invariant_reachable cmp_int cmp_int_strictTotalOrder 4 (by decide)
      [Op.insert 5, Op.insert 3, Op.insert 8, Op.remove 5, Op.insert 4]).1 with
    | ⟨b, h1, _, h3, h4⟩ => ⟨b, h1, h3, h4⟩⟩

/-- C2. After every sequence of fewer than `2 ^ 64` `bst_insert` and `bst_remove`
calls applied to the tree returned by `bst_create` (comparator a strict total order,
allocation succeeding), `bst_size` equals the number of nodes reachable from the
root, which equals the number of distinct values inserted and not removed
afterwards; inserting one of these values again leaves `bst_size` as it is. -/
theorem size_invariant_reachable {α : Type} [DecidableEq α] (compare : α → α → Int)
    (hcmp : StrictTotalOrder compare) (element_size : Nat) (hes : element_size ≠ 0)
    (ops : List (Op α)) (hlen : ops.length < SIZE_MOD) :
    ∃ b, runOps (bst_create true element_size (some compare)) ops = some b ∧
      bst_size (some b) = numNodes b.root ∧
      numNodes b.root = (liveSet ops).card ∧
      (∀ v, v ∈ liveSet ops ↔ insertedNotRemoved ops v) ∧
      (∀ alloc v, v ∈ liveSet ops →
        bst_size (bst_insert alloc (some b) (some v)).2 = bst_size (some b)) := by
  obtain ⟨b, e, c, o, m, f, s⟩ := runOps_create compare hcmp element_size hes ops
  refine ⟨b, e, s hlen, ?_, ?_, ?_⟩
  · rw [← f, List.toFinset_card_of_nodup (inorder_nodup hcmp o), length_inorder]
  · intro v
    rw [← f, List.mem_toFinset, m v]
  · intro alloc v hv
    rw [← f, List.mem_toFinset] at hv
    have hs : search_loop b.compare b.root v = true := by
      rw [c]; exact (search_loop_iff_mem hcmp o v).2 hv
    have e1 : bst_insert alloc (some b) (some v) = (false, some b) := by
      simp [bst_insert, insert_found alloc b b.root v hs]
    rw [e1]

theorem size_invariant_reachable_witness :
    StrictTotalOrder cmp_int ∧
    ∃ b, runOps (bst_create true 4 (some cmp_int))
        [Op.insert 5, Op.insert 3, Op.insert 5, Op.remove 3, Op.insert 8] = some b ∧
      bst_size (some b) = numNodes b.root ∧ numNodes b.root = 2 :=
  ⟨cmp_int_strictTotalOrder,
    match size_invariant_reachable cmp_int cmp_int_strictTotalOrder 4 (by decide)
      [Op.insert 5, Op.insert 3, Op.insert 5, Op.remove 3, Op.insert 8] (by decide) with
    | ⟨b, h1, h2, h3, _⟩ => ⟨b, h1, h2, h3.trans (by decide)⟩⟩

/-- C4. For every tree obtained from the tree returned by `bst_create` by a finite
sequence of `bst_insert` and `bst_remove` calls (comparator a strict total order),
`bst_search` of a key returns true exactly when the key was inserted and not removed
afterwards, that is exactly when the key occurs in the in-order sequence; a search
right after inserting the key is true and right after removing it is false. -/
theorem search_round_trip {α : Type} [DecidableEq α] (compare : α → α → Int)
    (hcmp : StrictTotalOrder compare) (element_size : Nat) (hes : element_size ≠ 0)
    (ops : List (Op α)) (key : α) :
    ∃ b, runOps (bst_create true element_size (some compare)) ops = some b ∧
      (bst_search (some b) (some key) = true ↔ insertedNotRemoved ops key) ∧
      (bst_search (some b) (some key) = true ↔ key ∈ inorder b.root) ∧
      bst_search (applyOp (some b) (Op.insert key)) (some key) = true ∧
      bst_search (applyOp (some b) (Op.remove key)) (some key) = false := by
  obtain ⟨b, e, c, o, m, -, -⟩ := runOps_create compare hcmp element_size hes ops
  have hcb : StrictTotalOrder b.compare := c ▸ hcmp
  have hob : bst_ordered b.compare b.root := by rw [c]; exact o
  have hmem : bst_search (some b) (some key) = true ↔ key ∈ inorder b.root :=
    search_loop_iff_mem hcb hob key
  refine ⟨b, e, hmem.trans (m key), hmem, ?_, ?_⟩
  · obtain ⟨b1, e1, c1, o1, m1, -⟩ := applyOp_spec b (Op.insert key) hcb hob
    rw [e1]
    exact (search_loop_iff_mem (c1 ▸ hcb) o1 key).2 ((m1 key).2 (Or.inl rfl))
  · obtain ⟨b1, e1, c1, o1, m1, -⟩ := applyOp_spec b (Op.remove key) hcb hob
    rw [e1]
    have hn : key ∉ inorder b1.root := fun hx => ((m1 key).1 hx).1 rfl
    exact (not_mem_iff_search_false (c1 ▸ hcb) o1 key).1 hn

theorem search_round_trip_witness :
    StrictTotalOrder cmp_int ∧
    insertedNotRemoved [Op.insert 5, Op.insert 3, Op.remove 5, Op.insert 8] (3 : Int) ∧
    bst_search (runOps (bst_create true 4 (some cmp_int))
      [Op.insert 5, Op.insert 3, Op.remove 5, Op.insert 8]) (some 3) = true :=
  ⟨cmp_int_strictTotalOrder,
    ⟨[Op.insert 5], [Op.remove 5, Op.insert 8], rfl, by decide⟩,
    match search_round_trip cmp_int cmp_int_strictTotalOrder 4 (by decide)
      [Op.insert 5, Op.insert 3, Op.remove 5, Op.insert 8] 3 with
    | ⟨_, h1, h2, _⟩ =>
      h1 ▸ h2.2 ⟨[Op.insert 5], [Op.remove 5, Op.insert 8], rfl, by decide⟩⟩

theorem bst_insert_fresh_iff_witness :
    bst_ordered cmp_int sampleTree.root ∧ (6 : Int) ∉ inorder sampleTree.root ∧
      (bst_insert true (some sampleTree) (some 6)).1 = true :=
  ⟨by decide, by decide,
    (bst_insert_fresh_iff sampleTree 6 cmp_int_strictTotalOrder (by decide)
      (by decide)).1.2 (by decide)⟩

theorem bst_remove_present_iff_witness :
    bst_ordered cmp_int sampleTree.root ∧ (5 : Int) ∈ inorder sampleTree.root ∧
      (bst_remove (some sampleTree) (some 5)).1 = true :=
  ⟨by decide, by decide,
    (bst_remove_present_iff sampleTree 5 cmp_int_strictTotalOrder (by decide) (by decide)
      (by decide)).1.2 (by decide)⟩

theorem bst_remove_absent_noop_witness :
    bst_ordered cmp_int sampleTree.root ∧ (6 : Int) ∉ inorder sampleTree.root ∧
      bst_remove (some sampleTree) (some 6) = (false, some sampleTree) :=
  ⟨by decide, by decide,
    (bst_remove_absent_noop sampleTree 6 cmp_int_strictTotalOrder (by decide)
      (by decide)).1⟩

theorem bst_insert_duplicate_noop_witness :
    bst_search (some sampleTree) (some 4) = true ∧
      bst_insert true (some sampleTree) (some 4) = (false, some sampleTree) :=
  ⟨by decide, (bst_insert_duplicate_noop true sampleTree 4 (by decide)).1⟩

/-! ## k-th smallest -/

theorem wrap_int_eq {z : Int} (h1 : -2 ^ 31 ≤ z) (h2 : z < 2 ^ 31) : wrap_int z = z := by
  unfold wrap_int
  omega

/-- Behaviour of `get_kth` on a subtree of `n` nodes entered with counter `k`, as
long as the counter stays in the range of `int`: outside `[1, n]` every node is
visited and the marker `-1` comes back with the counter lowered by `n`; inside, the
returned value is the element of rank `k`, the counter is `0` when that element is
not the marker, and never positive when it is. -/
theorem get_kth_spec (n : Node Int) :
    ∀ k : Int, -2 ^ 31 ≤ k - numNodes n → k < 2 ^ 31 →
      ((k ≤ 0 ∨ (numNodes n : Int) < k) → get_kth n k = (-1, k - numNodes n)) ∧
      (∀ i : Nat, k = (i : Int) + 1 → i < numNodes n →
        (inorder n)[i]? = some (get_kth n k).1 ∧
        ((get_kth n k).1 ≠ -1 → (get_kth n k).2 = 0) ∧
        ((get_kth n k).1 = -1 → k - numNodes n ≤ (get_kth n k).2 ∧ (get_kth n k).2 ≤ 0)) := by
  induction n with
  | null =>
    intro k _ _
    refine ⟨fun _ => by simp [get_kth, numNodes], ?_⟩
    intro i _ hi
    simp [numNodes] at hi
  | mk d l r ihl ihr =>
    intro k hlo hhi
    simp only [numNodes, Nat.cast_add, Nat.cast_one] at hlo ⊢
    have hl := ihl k (by omega) hhi
    constructor
    · intro hout
      have e1 : get_kth l k = (-1, k - numNodes l) := hl.1 (by omega)
      have hk1 : wrap_int (k - numNodes l - 1) = k - numNodes l - 1 :=
        wrap_int_eq (by omega) (by omega)
      have hr := ihr (k - numNodes l - 1) (by omega) (by omega)
      have e2 := hr.1 (by omega)
      have hne : k - (numNodes l : Int) - 1 ≠ 0 := by omega
      simp only [get_kth, e1, hk1, ne_eq, not_true_eq_false, if_false, hne, e2]
      congr 1
      omega
    · intro i hki hi
      have hlen : (inorder l).length = numNodes l := length_inorder l
      rcases Nat.lt_trichotomy i (numNodes l) with hlt | heq | hgt
      · -- the element of rank k lies in the left subtree
        obtain ⟨g1, g2, g3⟩ := hl.2 i hki hlt
        have hidx : (inorder (Node.mk d l r))[i]? = (inorder l)[i]? := by
          rw [inorder, List.getElem?_append_left (by omega)]
        by_cases hm : (get_kth l k).1 = -1
        · obtain ⟨b1, b2⟩ := g3 hm
          have hk1 : wrap_int ((get_kth l k).2 - 1) = (get_kth l k).2 - 1 :=
            wrap_int_eq (by omega) (by omega)
          have hr := ihr ((get_kth l k).2 - 1) (by omega) (by omega)
          have e2 := hr.1 (by omega)
          have hne : (get_kth l k).2 - 1 ≠ 0 := by omega
          have e : get_kth (Node.mk d l r) k
              = (-1, (get_kth l k).2 - 1 - numNodes r) := by
            simp only [get_kth, hm, hk1, ne_eq, not_true_eq_false, if_false, hne, e2]
          rw [e, hidx, g1, hm]
          refine ⟨rfl, fun hc => absurd rfl hc, fun _ => ?_⟩
          constructor <;> simp only <;> omega
        · have e : get_kth (Node.mk d l r) k = ((get_kth l k).1, (get_kth l k).2) := by
            simp only [get_kth, ne_eq, hm, not_false_eq_true, if_true]
          rw [e, hidx, g1]
          exact ⟨rfl, fun _ => g2 hm, fun hc => absurd hc hm⟩
      · -- the element of rank k is the value of this node
        have e1 : get_kth l k = (-1, k - numNodes l) := hl.1 (by omega)
        have hk1 : wrap_int (k - numNodes l - 1) = 0 := by
          rw [wrap_int_eq (by omega) (by omega)]; omega
        have e : get_kth (Node.mk d l r) k = (d, 0) := by
          simp only [get_kth, e1, hk1, ne_eq, not_true_eq_false, if_false, if_true]
        have hidx : (inorder (Node.mk d l r))[i]? = some d := by
          rw [inorder, List.getElem?_append_right (by omega)]
          have : i - (inorder l).length = 0 := by omega
          rw [this]; simp
        rw [e, hidx]
        refine ⟨rfl, fun _ => rfl, fun _ => ?_⟩
        constructor <;> simp only <;> omega
      · -- the element of rank k lies in the right subtree
        have e1 : get_kth l k = (-1, k - numNodes l) := hl.1 (by omega)
        have hk1 : wrap_int (k - numNodes l - 1) = k - numNodes l - 1 :=
          wrap_int_eq (by omega) (by omega)
        have hne : k - (numNodes l : Int) - 1 ≠ 0 := by omega
        have e : get_kth (Node.mk d l r) k = get_kth r (k - numNodes l - 1) := by
          simp only [get_kth, e1, hk1, ne_eq, not_true_eq_false, if_false, hne]
        have hr := ihr (k - numNodes l - 1) (by omega) (by omega)
        obtain ⟨g1, g2, g3⟩ := hr.2 (i - numNodes l - 1) (by omega) (by omega)
        have hidx : (inorder (Node.mk d l r))[i]? = (inorder r)[i - numNodes l - 1]? := by
          rw [inorder, List.getElem?_append_right (by omega)]
          have : i - (inorder l).length = (i - numNodes l - 1) + 1 := by omega
          rw [this]; simp
        rw [e, hidx]
        refine ⟨g1, g2, fun hc => ?_⟩
        have := g3 hc
        constructor <;> omega

theorem to_size_t_of_nonneg {k : Int} (h0 : 0 ≤ k) (h1 : k < 2 ^ 31) :
    to_size_t k = k.toNat := by
  unfold to_size_t
  congr 1
  omega

theorem to_size_t_of_neg {k : Int} (h0 : k < 0) (h1 : -2 ^ 31 ≤ k) :
    (to_size_t k : Int) = 2 ^ 64 + k := by
  unfold to_size_t
  omega

/-- C8. For every tree of `int` values whose size counter equals its node count and
fits in an `int`, and every `k` with `1 ≤ k ≤ size`, `get_kthSmallest` returns the
`k`-th element (1-indexed) of the in-order sequence.  No assumption is made on the
stored values: the statement covers trees that contain `-1`, the value `get_kth`
also uses as its marker. -/
theorem get_kthSmallest_inorder (b : BST Int) (k : Int)
    (hcount : b.size = numNodes b.root) (hint : (b.size : Int) < 2 ^ 31)
    (h1 : 1 ≤ k) (h2 : k ≤ b.size) :
    (inorder b.root)[(k - 1).toNat]? = some (get_kthSmallest (some b) k) := by
  have hg : kth_guard (some b) k = false := by
    have ht := @to_size_t_of_nonneg k (by omega) (by omega)
    simp only [kth_guard, ht, Bool.or_eq_false_iff, decide_eq_false_iff_not]
    constructor <;> omega
  have e : get_kthSmallest (some b) k = (get_kth b.root k).1 := by
    simp [get_kthSmallest, hg]
  rw [e]
  have hsp := get_kth_spec b.root k (by omega) (by omega)
  exact (hsp.2 (k - 1).toNat (by omega) (by omega)).1

theorem get_kthSmallest_inorder_witness :
    buildInts [5, 3, 8, 1, 4, 7, 9] = some sampleTree ∧
    sampleTree.size = numNodes sampleTree.root ∧
    get_kthSmallest (some sampleTree) 3 = 4 ∧
    get_kthSmallest (buildInts [5, -1, 8]) 1 = -1 :=
  ⟨rfl, by decide,
    Option.some.inj ((get_kthSmallest_inorder sampleTree 3 (by decide) (by decide)
      (by decide) (by decide)).symm.trans (by decide)),
    by decide⟩

/-- C9. For every tree whose size counter is below `2 ^ 64 - 2 ^ 31` and every `int`
`k` outside `[1, size]` (zero, negative, or greater than the size), the guard of
`get_kthSmallest` fires, so `-1` is returned before `get_kth` is called; a negative
`k` is rejected because its conversion to `size_t` exceeds the size.  On an absent
tree `get_kthSmallest` returns `-1` as well. -/
theorem get_kthSmallest_out_of_range (b : BST Int) (k : Int)
    (hk1 : -2 ^ 31 ≤ k) (hk2 : k < 2 ^ 31) (hsize : b.size + 2 ^ 31 < SIZE_MOD)
    (hout : k < 1 ∨ (b.size : Int) < k) :
    kth_guard (some b) k = true ∧ get_kthSmallest (some b) k = -1 ∧
      get_kthSmallest none k = -1 := by
  have hg : kth_guard (some b) k = true := by
    simp only [kth_guard, Bool.or_eq_true, decide_eq_true_eq]
    unfold SIZE_MOD at hsize
    rcases lt_trichotomy k 0 with hneg | hz | hpos
    · right
      have := to_size_t_of_neg hneg hk1
      omega
    · exact Or.inl hz
    · right
      rw [to_size_t_of_nonneg (by omega) hk2]
      omega
  refine ⟨hg, ?_, rfl⟩
  simp [get_kthSmallest, hg]

theorem get_kthSmallest_out_of_range_witness :
    get_kthSmallest (some sampleTree) (-1) = -1 ∧
    get_kthSmallest (some sampleTree) 0 = -1 ∧
    get_kthSmallest (some sampleTree) 8 = -1 :=
  ⟨(get_kthSmallest_out_of_range sampleTree (-1) (by decide) (by decide) (by decide)
      (by decide)).2.1,
    (get_kthSmallest_out_of_range sampleTree 0 (by decide) (by decide) (by decide)
      (by decide)).2.1,
    (get_kthSmallest_out_of_range sampleTree 8 (by decide) (by decide) (by decide)
      (by decide)).2.1⟩

/-! ## Minimum and maximum -/

theorem find_min_data {α : Type} (d : α) (l r : Node α) :
    (_find_min_node (.mk d l r)).data? = (inorder (.mk d l r)).head? := by
  obtain ⟨m, mr, rest, e1, e2⟩ := find_min_spec d l r
  rw [e1, e2]; rfl

theorem find_max_data {α : Type} (d : α) (l r : Node α) :
    (_find_max_node (.mk d l r)).data? = (inorder (.mk d l r)).getLast? := by
  obtain ⟨m, ml, rest, e1, e2⟩ := find_max_spec d l r
  rw [e1, e2]; simp [Node.data?]

/-- C10. The functions `bst_min` and `bst_max` return an absent result exactly when
the tree is absent or has no root.  On a tree with a root they return the value of
the leftmost and of the rightmost node (the node reached by following left, resp.
right, links from the root), which are the first and the last element of the in-order
sequence; when the comparator is a strict total order and the tree satisfies the
order invariant, these are the least and the greatest element of the tree. -/
theorem bst_min_max_spec {α : Type} (ob : Option (BST α)) :
    (bst_min ob = none ↔ ob = none ∨ ∃ b, ob = some b ∧ b.root = Node.null) ∧
    (bst_max ob = none ↔ ob = none ∨ ∃ b, ob = some b ∧ b.root = Node.null) ∧
    (∀ b, ob = some b →
      bst_min ob = (inorder b.root).head? ∧ bst_max ob = (inorder b.root).getLast?) ∧
    (∀ b d l r, ob = some b → b.root = Node.mk d l r →
      bst_min ob = (if l.isNull then some d else bst_min (some { b with root := l })) ∧
      bst_max ob = (if r.isNull then some d else bst_max (some { b with root := r }))) ∧
    (∀ b, ob = some b → StrictTotalOrder b.compare → bst_ordered b.compare b.root →
      (∀ m, bst_min ob = some m →
        m ∈ inorder b.root ∧ ∀ x ∈ inorder b.root, b.compare m x ≤ 0) ∧
      (∀ m, bst_max ob = some m →
        m ∈ inorder b.root ∧ ∀ x ∈ inorder b.root, b.compare m x ≥ 0)) := by
  have hseq : ∀ b : BST α,
      bst_min (some b) = (inorder b.root).head? ∧
        bst_max (some b) = (inorder b.root).getLast? := by
    intro b
    cases hr : b.root with
    | null => simp [bst_min, bst_max, hr, Node.isNull, inorder]
    | mk d l r =>
      simp only [bst_min, bst_max, hr, Node.isNull, Bool.false_eq_true, if_false]
      exact ⟨find_min_data d l r, find_max_data d l r⟩
  have hnone : ∀ b : BST α,
      (bst_min (some b) = none ↔ b.root = Node.null) ∧
        (bst_max (some b) = none ↔ b.root = Node.null) := by
    intro b
    cases hr : b.root with
    | null => simp [bst_min, bst_max, hr, Node.isNull]
    | mk d l r =>
      obtain ⟨m, mr, rest, e1, -⟩ := find_min_spec d l r
      obtain ⟨m2, ml, rest2, e2, -⟩ := find_max_spec d l r
      simp [bst_min, bst_max, hr, Node.isNull, e1, e2, Node.data?]
  refine ⟨?_, ?_, ?_, ?_, ?_⟩
  · cases ob with
    | none => simp [bst_min]
    | some b => simp [(hnone b).1]
  · cases ob with
    | none => simp [bst_max]
    | some b => simp [(hnone b).2]
  · rintro b rfl
    exact hseq b
  · rintro b d l r rfl hr
    constructor
    · cases l with
      | null => simp [bst_min, hr, Node.isNull, _find_min_node, Node.data?]
      | mk ld ll lr => simp [bst_min, hr, Node.isNull, _find_min_node]
    · cases r with
      | null => simp [bst_max, hr, Node.isNull, _find_max_node, Node.data?]
      | mk rd rl rr => simp [bst_max, hr, Node.isNull, _find_max_node]
  · rintro b rfl hcmp hord
    have hp := (bst_ordered_iff_pairwise hcmp b.root).1 hord
    constructor
    · intro m hm
      rw [(hseq b).1] at hm
      cases hl : inorder b.root with
      | nil => rw [hl] at hm; simp at hm
      | cons a rest =>
        rw [hl] at hm hp
        simp only [List.head?_cons, Option.some.injEq] at hm
        subst hm
        refine ⟨List.mem_cons_self _ _, ?_⟩
        intro x hx
        rcases List.mem_cons.1 hx with rfl | hx
        · exact le_of_eq (hcmp.refl _)
        · exact le_of_lt ((List.pairwise_cons.1 hp).1 x hx)
    · intro m hm
      cases hr : b.root with
      | null => simp [bst_max, hr, Node.isNull] at hm
      | mk d l r =>
        obtain ⟨m2, ml, rest, e1, e2⟩ := find_max_spec d l r
        simp only [bst_max, hr, Node.isNull, Bool.false_eq_true, if_false, e1, Node.data?,
          Option.some.injEq] at hm
        subst hm
        rw [hr] at hp
        rw [e2] at hp ⊢
        refine ⟨by simp, ?_⟩
        intro x hx
        rcases List.mem_append.1 hx with hx | hx
        · have hlt : b.compare x m2 < 0 :=
            (List.pairwise_append.1 hp).2.2 x hx m2 (List.mem_singleton_self m2)
          exact le_of_lt ((hcmp.antisymm x m2).1 hlt)
        · rw [List.mem_singleton.1 hx]
          exact le_of_eq (hcmp.refl _).symm

theorem bst_min_max_spec_witness :
    StrictTotalOrder cmp_int ∧ bst_ordered cmp_int sampleTree.root ∧
    bst_min (some sampleTree) = some 1 ∧ bst_max (some sampleTree) = some 9 ∧
    (∀ x ∈ inorder sampleTree.root, cmp_int 1 x ≤ 0) ∧
    (∀ x ∈ inorder sampleTree.root, cmp_int 9 x ≥ 0) :=
  ⟨cmp_int_strictTotalOrder, by decide, by decide, by decide,
    (((bst_min_max_spec (some sampleTree)).2.2.2.2 sampleTree rfl
      cmp_int_strictTotalOrder (by decide)).1 1 (by decide)).2,
    (((bst_min_max_spec (some sampleTree)).2.2.2.2 sampleTree rfl
      cmp_int_strictTotalOrder (by decide)).2 9 (by decide)).2⟩

/-! ## Validation strategies -/

theorem cmp_int_neg_iff (a b : Int) : cmp_int a b < 0 ↔ a < b := by
  unfold cmp_int
  split_ifs <;> constructor <;> intro _ <;> omega

theorem cmp_int_pos_iff (a b : Int) : cmp_int a b > 0 ↔ b < a := by
  unfold cmp_int
  split_ifs <;> constructor <;> intro _ <;> omega

theorem int_ordered_iff_bst_ordered (n : Node Int) :
    int_ordered n ↔ bst_ordered cmp_int n := by
  induction n with
  | null => simp [int_ordered, bst_ordered]
  | mk d l r ihl ihr =>
    simp only [int_ordered, bst_ordered, ihl, ihr, cmp_int_neg_iff, cmp_int_pos_iff]

theorem int_ordered_iff_pairwise (n : Node Int) :
    int_ordered n ↔ (inorder n).Pairwise (fun a b => a < b) := by
  rw [int_ordered_iff_bst_ordered, bst_ordered_iff_pairwise cmp_int_strictTotalOrder]
  simp only [cmp_int_neg_iff]

theorem pre_order_spec (n : Node Int) :
    ∀ lo hi : Int, pre_order_traverse n lo hi = true ↔
      (inorder n).Pairwise (fun a b => a < b) ∧ ∀ x ∈ inorder n, lo < x ∧ x < hi := by
  induction n with
  | null => intro lo hi; simp [pre_order_traverse, inorder]
  | mk d l r ihl ihr =>
    intro lo hi
    simp only [pre_order_traverse, Bool.and_eq_true, decide_eq_true_eq, ihl, ihr, inorder,
      List.pairwise_append, List.pairwise_cons, List.mem_append, List.mem_cons]
    constructor
    · rintro ⟨⟨⟨h1, h2⟩, h3, h4⟩, h5, h6⟩
      refine ⟨⟨h3, ⟨fun x hx => (h6 x hx).1, h5⟩, ?_⟩, ?_⟩
      · intro a ha b hb
        rcases hb with rfl | hb
        · exact (h4 a ha).2
        · have := (h4 a ha).2
          have := (h6 b hb).1
          omega
      · rintro x (hx | rfl | hx)
        · have := h4 x hx
          omega
        · exact ⟨h1, h2⟩
        · have := h6 x hx
          omega
    · rintro ⟨⟨h3, ⟨h7, h5⟩, h8⟩, h9⟩
      have hd := h9 d (Or.inr (Or.inl rfl))
      refine ⟨⟨hd, h3, ?_⟩, h5, ?_⟩
      · intro x hx
        exact ⟨(h9 x (Or.inl hx)).1, h8 x hx d (Or.inl rfl)⟩
      · intro x hx
        exact ⟨h7 x hx, (h9 x (Or.inr (Or.inr hx))).2⟩

theorem in_order_spec (n : Node Int) :
    ∀ pre : Int,
      ((in_order_traverse n pre).1 = true ↔
        (inorder n).Pairwise (fun a b => a < b) ∧ ∀ x ∈ inorder n, pre < x) ∧
      ((in_order_traverse n pre).1 = true →
        (inorder n = [] ∧ (in_order_traverse n pre).2 = pre) ∨
        ((in_order_traverse n pre).2 ∈ inorder n ∧
          ∀ x ∈ inorder n, x ≤ (in_order_traverse n pre).2)) := by
  induction n with
  | null => intro pre; simp [in_order_traverse, inorder]
  | mk d l r ihl ihr =>
    intro pre
    obtain ⟨l1, l2⟩ := ihl pre
    simp only [in_order_traverse, inorder, List.pairwise_append, List.pairwise_cons,
      List.mem_append, List.mem_cons]
    cases hl : (in_order_traverse l pre).1 with
    | false =>
      have hnl : ¬ ((inorder l).Pairwise (fun a b => a < b) ∧ ∀ x ∈ inorder l, pre < x) := by
        rw [← l1, hl]; simp
      simp only [Bool.not_false, if_true]
      refine ⟨?_, by simp⟩
      constructor
      · intro h; simp at h
      · rintro ⟨⟨h3, -, -⟩, h9⟩
        exact absurd ⟨h3, fun x hx => h9 x (Or.inl hx)⟩ hnl
    | true =>
      obtain ⟨h3, h4⟩ := l1.1 hl
      have hlast := l2 hl
      simp only [Bool.not_true, Bool.false_eq_true, if_false]
      by_cases hd : d ≤ (in_order_traverse l pre).2
      · rw [if_pos hd]
        refine ⟨?_, by simp⟩
        constructor
        · intro h; simp at h
        · rintro ⟨⟨-, -, h8⟩, h9⟩
          rcases hlast with ⟨he, hp⟩ | ⟨hm, -⟩
          · have := h9 d (Or.inr (Or.inl rfl))
            omega
          · have := h8 _ hm d (Or.inl rfl)
            omega
      · rw [if_neg hd]
        obtain ⟨r1, r2⟩ := ihr d
        have hld : ∀ a ∈ inorder l, a < d := by
          intro a ha
          rcases hlast with ⟨he, -⟩ | ⟨-, hmax⟩
          · rw [he] at ha; simp at ha
          · have := hmax a ha
            omega
        have hpd : pre < d := by
          rcases hlast with ⟨-, hp⟩ | ⟨hm, -⟩
          · omega
          · have := h4 _ hm
            omega
        constructor
        · rw [r1]
          constructor
          · rintro ⟨h5, h6⟩
            refine ⟨⟨h3, ⟨h6, h5⟩, ?_⟩, ?_⟩
            · intro a ha b hb
              rcases hb with rfl | hb
              · exact hld a ha
              · have := hld a ha
                have := h6 b hb
                omega
            · rintro x (hx | rfl | hx)
              · exact h4 x hx
              · exact hpd
              · have := h6 x hx
                omega
          · rintro ⟨⟨-, ⟨h6, h5⟩, -⟩, -⟩
            exact ⟨h5, h6⟩
        · intro hr
          obtain ⟨h5, h6⟩ := r1.1 hr
          right
          rcases r2 hr with ⟨he, hp⟩ | ⟨hm, hmax⟩
          · rw [hp, he]
            refine ⟨Or.inr (Or.inl rfl), ?_⟩
            rintro x (hx | rfl | hx)
            · exact le_of_lt (hld x hx)
            · exact le_refl _
            · simp at hx
          · refine ⟨Or.inr (Or.inr hm), ?_⟩
            rintro x (hx | rfl | hx)
            · have := hld x hx
              have := h6 _ hm
              omega
            · exact le_of_lt (h6 _ hm)
            · exact hmax x hx

theorem llong_min_lt_max : LLONG_MIN < LLONG_MAX := by
  unfold LLONG_MIN LLONG_MAX; omega

/-- What the pair returned for a valid left subtree says to the parent with value `d`. -/
theorem post_left_summary (pl : Pair) (L : List Int) (d : Int)
    (hd : LLONG_MIN < d ∧ d < LLONG_MAX)
    (h : (L = [] ∧ pl = { min := LLONG_MAX, max := LLONG_MIN }) ∨
      (pl.min ∈ L ∧ pl.max ∈ L ∧ ∀ x ∈ L, pl.min ≤ x ∧ x ≤ pl.max)) :
    (d ≤ pl.max ↔ ¬ ∀ a ∈ L, a < d) ∧
    (¬ d ≤ pl.max →
      MIN pl.min d ≤ d ∧ (∀ x ∈ L, MIN pl.min d ≤ x) ∧ (MIN pl.min d = d ∨ MIN pl.min d ∈ L)) := by
  rcases h with ⟨he, hp⟩ | ⟨hmin, hmax, hb⟩
  · subst he
    rw [hp]
    refine ⟨?_, fun _ => ?_⟩
    · simp only [List.not_mem_nil, false_implies, implies_true, not_true_eq_false, iff_false]
      omega
    · have hm : MIN LLONG_MAX d = d := by
        unfold MIN; rw [if_pos (by omega)]
      simp [hm]
  · constructor
    · constructor
      · intro hle hall
        have := hall _ hmax
        omega
      · intro hn
        by_contra hc
        apply hn
        intro a ha
        have := (hb a ha).2
        omega
    · intro hn
      have h1 := hb _ hmin
      have hm : MIN pl.min d = pl.min := by
        unfold MIN; rw [if_neg (by omega)]
      rw [hm]
      exact ⟨by omega, fun x hx => (hb x hx).1, Or.inr hmin⟩

/-- What the pair returned for a valid right subtree says to the parent with value `d`. -/
theorem post_right_summary (pr : Pair) (R : List Int) (d : Int)
    (hd : LLONG_MIN < d ∧ d < LLONG_MAX)
    (h : (R = [] ∧ pr = { min := LLONG_MAX, max := LLONG_MIN }) ∨
      (pr.min ∈ R ∧ pr.max ∈ R ∧ ∀ x ∈ R, pr.min ≤ x ∧ x ≤ pr.max)) :
    (d ≥ pr.min ↔ ¬ ∀ b ∈ R, d < b) ∧
    (¬ d ≥ pr.min →
      d ≤ MAX pr.max d ∧ (∀ x ∈ R, x ≤ MAX pr.max d) ∧ (MAX pr.max d = d ∨ MAX pr.max d ∈ R)) := by
  rcases h with ⟨he, hp⟩ | ⟨hmin, hmax, hb⟩
  · subst he
    rw [hp]
    refine ⟨?_, fun _ => ?_⟩
    · simp only [List.not_mem_nil, false_implies, implies_true, not_true_eq_false, iff_false]
      omega
    · have hm : MAX LLONG_MIN d = d := by
        unfold MAX; rw [if_neg (by omega)]
      simp [hm]
  · constructor
    · constructor
      · intro hle hall
        have := hall _ hmin
        omega
      · intro hn
        by_contra hc
        apply hn
        intro b hb1
        have := (hb b hb1).1
        omega
    · intro hn
      have h1 := hb _ hmax
      have hm : MAX pr.max d = pr.max := by
        unfold MAX; rw [if_pos (by omega)]
      rw [hm]
      exact ⟨by omega, fun x hx => (hb x hx).2, Or.inr hmax⟩

theorem post_order_spec (n : Node Int)
    (hv : ∀ x ∈ inorder n, LLONG_MIN < x ∧ x < LLONG_MAX) :
    (¬ (inorder n).Pairwise (fun a b => a < b) →
      post_order_traverse n = { min := LLONG_MIN, max := LLONG_MAX }) ∧
    ((inorder n).Pairwise (fun a b => a < b) →
      (inorder n = [] ∧ post_order_traverse n = { min := LLONG_MAX, max := LLONG_MIN }) ∨
      ((post_order_traverse n).min ∈ inorder n ∧ (post_order_traverse n).max ∈ inorder n ∧
        ∀ x ∈ inorder n, (post_order_traverse n).min ≤ x ∧ x ≤ (post_order_traverse n).max)) := by
  induction n with
  | null => simp [inorder, post_order_traverse]
  | mk d l r ihl ihr =>
    have hvl : ∀ x ∈ inorder l, LLONG_MIN < x ∧ x < LLONG_MAX :=
      fun x hx => hv x (by simp [inorder, hx])
    have hvr : ∀ x ∈ inorder r, LLONG_MIN < x ∧ x < LLONG_MAX :=
      fun x hx => hv x (by simp [inorder, hx])
    have hvd : LLONG_MIN < d ∧ d < LLONG_MAX := hv d (by simp [inorder])
    obtain ⟨l1, l2⟩ := ihl hvl
    obtain ⟨r1, r2⟩ := ihr hvr
    have hpw : (inorder (Node.mk d l r)).Pairwise (fun a b => a < b) ↔
        (inorder l).Pairwise (fun a b => a < b) ∧ (inorder r).Pairwise (fun a b => a < b) ∧
          (∀ a ∈ inorder l, a < d) ∧ (∀ b ∈ inorder r, d < b) := by
      simp only [inorder, List.pairwise_append, List.pairwise_cons, List.mem_cons]
      constructor
      · rintro ⟨h1, ⟨h2, h3⟩, h4⟩
        exact ⟨h1, h3, fun a ha => h4 a ha d (Or.inl rfl), h2⟩
      · rintro ⟨h1, h3, h5, h2⟩
        refine ⟨h1, ⟨h2, h3⟩, ?_⟩
        intro a ha b hb
        rcases hb with rfl | hb
        · exact h5 a ha
        · have := h5 a ha
          have := h2 b hb
          omega
    have hfail : (d ≤ (post_order_traverse l).max ∨ d ≥ (post_order_traverse r).min) →
        post_order_traverse (Node.mk d l r) = { min := LLONG_MIN, max := LLONG_MAX } := by
      intro hc
      simp only [post_order_traverse]
      rw [if_pos hc]
    by_cases Pl : (inorder l).Pairwise (fun a b => a < b)
    · by_cases Pr : (inorder r).Pairwise (fun a b => a < b)
      · obtain ⟨a1, a2⟩ := post_left_summary _ (inorder l) d hvd (l2 Pl)
        obtain ⟨b1, b2⟩ := post_right_summary _ (inorder r) d hvd (r2 Pr)
        constructor
        · intro hnp
          apply hfail
          by_contra hc
          rw [not_or] at hc
          apply hnp
          rw [hpw]
          refine ⟨Pl, Pr, ?_, ?_⟩
          · by_contra h; exact hc.1 (a1.2 h)
          · by_contra h; exact hc.2 (b1.2 h)
        · intro hp
          obtain ⟨-, -, h5, h2⟩ := hpw.1 hp
          have c1 : ¬ d ≤ (post_order_traverse l).max := fun h => a1.1 h h5
          have c2 : ¬ d ≥ (post_order_traverse r).min := fun h => b1.1 h h2
          obtain ⟨m1, m2, m3⟩ := a2 c1
          obtain ⟨n1, n2, n3⟩ := b2 c2
          have e : post_order_traverse (Node.mk d l r) =
              { min := MIN (post_order_traverse l).min d,
                max := MAX (post_order_traverse r).max d } := by
            simp only [post_order_traverse]
            rw [if_neg (by rw [not_or]; exact ⟨c1, c2⟩)]
          right
          rw [e]
          simp only [inorder, List.mem_append, List.mem_cons]
          refine ⟨?_, ?_, ?_⟩
          · rcases m3 with h | h
            · exact Or.inr (Or.inl h)
            · exact Or.inl h
          · rcases n3 with h | h
            · exact Or.inr (Or.inl h)
            · exact Or.inr (Or.inr h)
          · rintro x (hx | rfl | hx)
            · have := m2 x hx
              have := h5 x hx
              exact ⟨by omega, by omega⟩
            · exact ⟨m1, n1⟩
            · have := n2 x hx
              have := h2 x hx
              exact ⟨by omega, by omega⟩
      · have e := r1 Pr
        refine ⟨fun _ => hfail (Or.inr ?_), fun h => absurd (hpw.1 h).2.1 Pr⟩
        rw [e]
        show d ≥ LLONG_MIN
        omega
    · have e := l1 Pl
      refine ⟨fun _ => hfail (Or.inl ?_), fun h => absurd (hpw.1 h).1 Pl⟩
      rw [e]
      show d ≤ LLONG_MAX
      omega

theorem int_values_bounds {n : Node Int} (hv : int_values n) :
    ∀ x ∈ inorder n, LLONG_MIN < x ∧ x < LLONG_MAX := by
  intro x hx
  have := hv x hx
  unfold INT_MIN INT_MAX at this
  unfold LLONG_MIN LLONG_MAX
  omega

/-- On a tree of `int` values each of the three strategies returns true exactly when
the in-order sequence is strictly increasing in the natural order. -/
theorem is_bst_valid_iff (b : BST Int) (hv : int_values b.root) :
    (is_bst_valid (some b) PRE_ORDER = true ↔ (inorder b.root).Pairwise (fun x y => x < y)) ∧
    (is_bst_valid (some b) IN_ORDER = true ↔ (inorder b.root).Pairwise (fun x y => x < y)) ∧
    (is_bst_valid (some b) POST_ORDER = true ↔
      (inorder b.root).Pairwise (fun x y => x < y)) := by
  have hb := int_values_bounds hv
  refine ⟨?_, ?_, ?_⟩
  · have e : is_bst_valid (some b) PRE_ORDER
        = pre_order_traverse b.root LLONG_MIN LLONG_MAX := by
      simp [is_bst_valid, PRE_ORDER]
    rw [e, pre_order_spec]
    exact ⟨fun h => h.1, fun h => ⟨h, hb⟩⟩
  · have e : is_bst_valid (some b) IN_ORDER = (in_order_traverse b.root LLONG_MIN).1 := by
      simp [is_bst_valid, IN_ORDER, PRE_ORDER]
    rw [e, (in_order_spec b.root LLONG_MIN).1]
    exact ⟨fun h => h.1, fun h => ⟨h, fun x hx => (hb x hx).1⟩⟩
  · have e : is_bst_valid (some b) POST_ORDER
        = decide ((post_order_traverse b.root).max ≠ LLONG_MAX) := by
      simp [is_bst_valid, IN_ORDER, PRE_ORDER, POST_ORDER]
    rw [e, decide_eq_true_eq]
    obtain ⟨p1, p2⟩ := post_order_spec b.root hb
    constructor
    · intro hne
      by_contra hp
      rw [p1 hp] at hne
      exact hne rfl
    · intro hp
      rcases p2 hp with ⟨-, e2⟩ | ⟨-, hmax, -⟩
      · rw [e2]
        show LLONG_MIN ≠ LLONG_MAX
        exact ne_of_lt llong_min_lt_max
      · exact ne_of_lt (hb _ hmax).2

/-- C11. For every finite binary tree of 32-bit integers, of any shape and ordered or
not, `is_bst_valid` returns the same boolean under `PRE_ORDER`, `IN_ORDER` and
`POST_ORDER`; on an absent tree all three return false. -/
theorem validation_strategies_agree (b : BST Int) (hv : int_values b.root) :
    is_bst_valid (some b) PRE_ORDER = is_bst_valid (some b) IN_ORDER ∧
    is_bst_valid (some b) IN_ORDER = is_bst_valid (some b) POST_ORDER ∧
    is_bst_valid none PRE_ORDER = is_bst_valid none IN_ORDER ∧
    is_bst_valid none IN_ORDER = is_bst_valid none POST_ORDER := by
  obtain ⟨h1, h2, h3⟩ := is_bst_valid_iff b hv
  refine ⟨?_, ?_, rfl, rfl⟩
  · rw [Bool.eq_iff_iff, h1, h2]
  · rw [Bool.eq_iff_iff, h2, h3]

theorem validation_strategies_agree_witness :
    int_values deepViolation.root ∧ int_values sampleTree.root ∧
    is_bst_valid (some deepViolation) PRE_ORDER = false ∧
    is_bst_valid (some deepViolation) IN_ORDER = false ∧
    is_bst_valid (some deepViolation) POST_ORDER = false ∧
    is_bst_valid (some sampleTree) IN_ORDER = is_bst_valid (some sampleTree) POST_ORDER :=
  ⟨by decide, by decide, by decide,
    (validation_strategies_agree deepViolation (by decide)).1.symm.trans (by decide),
    ((validation_strategies_agree deepViolation (by decide)).2.1.symm.trans
      ((validation_strategies_agree deepViolation (by decide)).1.symm.trans (by decide))),
    (validation_strategies_agree sampleTree (by decide)).2.1⟩

/-- C12. For every finite binary tree of 32-bit integers, `is_bst_valid` with
`PRE_ORDER` returns true exactly when every node is strictly greater than every
value of its left subtree and strictly less than every value of its right subtree,
that is exactly when the in-order sequence is strictly increasing.  A tree ordered
with respect to immediate children only, in which a deeper descendant violates the
bound of an ancestor, is reported invalid; the empty tree is reported valid. -/
theorem pre_order_checks_all_ancestors (b : BST Int) (hv : int_values b.root) :
    (is_bst_valid (some b) PRE_ORDER = true ↔ int_ordered b.root) ∧
    (int_ordered b.root ↔ (inorder b.root).Pairwise (fun x y => x < y)) ∧
    (locally_ordered b.root → ¬ int_ordered b.root →
      is_bst_valid (some b) PRE_ORDER = false) ∧
    (b.root = Node.null → is_bst_valid (some b) PRE_ORDER = true) := by
  have h1 := (is_bst_valid_iff b hv).1
  have h2 := int_ordered_iff_pairwise b.root
  refine ⟨h1.trans h2.symm, h2, ?_, ?_⟩
  · intro _ hno
    cases hval : is_bst_valid (some b) PRE_ORDER with
    | false => rfl
    | true => exact absurd (h2.2 (h1.1 hval)) hno
  · intro hr
    rw [h1, hr]
    exact List.Pairwise.nil

theorem pre_order_checks_all_ancestors_witness :
    int_values deepViolation.root ∧ locally_ordered deepViolation.root ∧
    ¬ int_ordered deepViolation.root ∧
    is_bst_valid (some deepViolation) PRE_ORDER = false :=
  ⟨by decide, by decide, by decide,
    (pre_order_checks_all_ancestors deepViolation (by decide)).2.2.1 (by decide)
      (by decide)⟩

/-- C17, the claim as stated fails: no tree of 32-bit integers that satisfies the
order invariant and holds `INT_MAX` or `INT_MIN` is rejected by the post-order
strategy. -/
theorem post_order_no_collision_counterexample :
    ¬ ∃ b : BST Int, int_values b.root ∧ bst_ordered cmp_int b.root ∧
      (INT_MAX ∈ inorder b.root ∨ INT_MIN ∈ inorder b.root) ∧
      is_bst_valid (some b) POST_ORDER = false := by
  rintro ⟨b, hv, ho, -, hf⟩
  have ht : is_bst_valid (some b) POST_ORDER = true :=
    (is_bst_valid_iff b hv).2.2.2
      ((int_ordered_iff_pairwise b.root).1 ((int_ordered_iff_bst_ordered b.root).2 ho))
  rw [ht] at hf
  exact Bool.noConfusion hf

/-- C17, amended. The failure pair `(LLONG_MIN, LLONG_MAX)` of the post-order strategy
lies outside the range of the stored 32-bit values, so no stored value collides with
it: on every tree of 32-bit integers, also one holding `INT_MAX` or `INT_MIN`,
`is_bst_valid` with `POST_ORDER` returns true exactly when the tree satisfies the
ascending order invariant. -/
theorem post_order_agrees_with_validity (b : BST Int) (hv : int_values b.root) :
    (is_bst_valid (some b) POST_ORDER = true ↔ bst_ordered cmp_int b.root) ∧
    (is_bst_valid (some b) POST_ORDER = true ↔ int_ordered b.root) := by
  have h3 := (is_bst_valid_iff b hv).2.2
  have h2 := int_ordered_iff_pairwise b.root
  exact ⟨(h3.trans h2.symm).trans (int_ordered_iff_bst_ordered b.root), h3.trans h2.symm⟩

theorem post_order_agrees_with_validity_witness :
    int_values extremeTree.root ∧ bst_ordered cmp_int extremeTree.root ∧
    INT_MAX ∈ inorder extremeTree.root ∧ INT_MIN ∈ inorder extremeTree.root ∧
    is_bst_valid (some extremeTree) POST_ORDER = true :=
  ⟨by decide, by decide, by decide, by decide,
    (post_order_agrees_with_validity extremeTree (by decide)).1.2 (by decide)⟩

/-! ## Validation under another comparator -/

theorem cmp_int_desc_strictTotalOrder : StrictTotalOrder cmp_int_desc := by
  refine ⟨?_, ?_, ?_⟩
  · intro a b
    unfold cmp_int_desc
    split_ifs <;> constructor <;> intro _ <;> first | omega | contradiction
  · intro a b
    unfold cmp_int_desc
    split_ifs <;> constructor <;> intro _ <;> omega
  · intro a b c
    unfold cmp_int_desc
    split_ifs <;> intro _ _ <;> omega

theorem cmp_int_desc_neg_iff (a b : Int) : cmp_int_desc a b < 0 ↔ b < a := by
  unfold cmp_int_desc
  split_ifs <;> constructor <;> intro _ <;> omega

theorem insertedNotRemoved_map_insert {α : Type} (vs : List α) (key : α) :
    insertedNotRemoved (vs.map Op.insert) key ↔ key ∈ vs := by
  constructor
  · rintro ⟨before, after, e, -⟩
    have hm : Op.insert key ∈ vs.map Op.insert := by
      rw [e]; simp
    obtain ⟨x, hx, hxe⟩ := List.mem_map.1 hm
    cases hxe
    exact hx
  · intro hk
    obtain ⟨s1, t1, e⟩ := List.append_of_mem hk
    refine ⟨s1.map Op.insert, t1.map Op.insert, by rw [e]; simp, ?_⟩
    intro hm
    obtain ⟨x, -, hxe⟩ := List.mem_map.1 hm
    cases hxe

/-- C20. The result of `is_bst_valid` does not depend on the comparator stored in the
tree: on trees of 32-bit integers it tests the natural ascending order of the stored
values under each strategy.  Hence the tree built by inserting integers, at least two
of them distinct, under the descending comparator satisfies the order invariant of
its own comparator and is reported invalid by all three strategies. -/
theorem validation_ignores_comparator (vs : List Int)
    (hint : ∀ x ∈ vs, INT_MIN ≤ x ∧ x ≤ INT_MAX)
    (hdistinct : ∃ a ∈ vs, ∃ c ∈ vs, a ≠ c) :
    (∃ b, runOps (bst_create true 4 (some cmp_int_desc)) (vs.map Op.insert) = some b ∧
      b.compare = cmp_int_desc ∧ bst_ordered cmp_int_desc b.root ∧
      is_bst_valid (some b) PRE_ORDER = false ∧
      is_bst_valid (some b) IN_ORDER = false ∧
      is_bst_valid (some b) POST_ORDER = false) ∧
    (∀ (b : BST Int) (compare2 : Int → Int → Int) (order : Int),
      is_bst_valid (some { b with compare := compare2 }) order = is_bst_valid (some b) order) ∧
    (∀ b : BST Int, int_values b.root → ∀ order,
      order = PRE_ORDER ∨ order = IN_ORDER ∨ order = POST_ORDER →
      (is_bst_valid (some b) order = true ↔ (inorder b.root).Pairwise (fun x y => x < y))) := by
  refine ⟨?_, fun _ _ _ => rfl, ?_⟩
  · obtain ⟨b, e, c, o, m, -, -⟩ :=
      runOps_create cmp_int_desc cmp_int_desc_strictTotalOrder 4 (by decide)
        (vs.map Op.insert)
    have hmem : ∀ key, key ∈ inorder b.root ↔ key ∈ vs := fun key =>
      (m key).trans (insertedNotRemoved_map_insert vs key)
    have hv : int_values b.root := fun x hx => hint x ((hmem x).1 hx)
    have hdesc : (inorder b.root).Pairwise (fun x y => y < x) := by
      have := (bst_ordered_iff_pairwise cmp_int_desc_strictTotalOrder b.root).1 o
      simpa only [cmp_int_desc_neg_iff] using this
    have hnot : ¬ (inorder b.root).Pairwise (fun x y => x < y) := by
      intro hasc
      obtain ⟨a, ha, c1, hc, hne⟩ := hdistinct
      have hboth := hasc.and hdesc
      have hsymm : Symmetric (fun x y : Int => x < y ∧ y < x) := fun x y h => ⟨h.2, h.1⟩
      have := hboth.forall hsymm ((hmem a).2 ha) ((hmem c1).2 hc) hne
      omega
    obtain ⟨h1, h2, h3⟩ := is_bst_valid_iff b hv
    refine ⟨b, e, c, o, ?_, ?_, ?_⟩
    · cases hval : is_bst_valid (some b) PRE_ORDER with
      | false => rfl
      | true => exact absurd (h1.1 hval) hnot
    · cases hval : is_bst_valid (some b) IN_ORDER with
      | false => rfl
      | true => exact absurd (h2.1 hval) hnot
    · cases hval : is_bst_valid (some b) POST_ORDER with
      | false => rfl
      | true => exact absurd (h3.1 hval) hnot
  · intro b hv order ho
    obtain ⟨h1, h2, h3⟩ := is_bst_valid_iff b hv
    rcases ho with rfl | rfl | rfl
    · exact h1
    · exact h2
    · exact h3

theorem validation_ignores_comparator_witness :
    (∀ x ∈ [(5 : Int), 3, 8], INT_MIN ≤ x ∧ x ≤ INT_MAX) ∧
    ∃ b, runOps (bst_create true 4 (some cmp_int_desc)) ([5, 3, 8].map Op.insert) = some b ∧
      bst_ordered cmp_int_desc b.root ∧
      is_bst_valid (some b) PRE_ORDER = false ∧
      is_bst_valid (some b) IN_ORDER = false ∧
      is_bst_valid (some b) POST_ORDER = false :=
  ⟨by decide,
    match (validation_ignores_comparator [5, 3, 8] (by decide)
      ⟨5, by decide, 3, by decide, by decide⟩).1 with
    | ⟨b, h1, _, h3, h4, h5, h6⟩ => ⟨b, h1, h3, h4, h5, h6⟩⟩

/-! ## Depth queries -/

theorem leafDepths_height {α : Type} (n : Node α) (hn : n ≠ Node.null) :
    height n ∈ leafDepths n ∧ ∀ d ∈ leafDepths n, 1 ≤ d ∧ d ≤ height n := by
  induction n with
  | null => exact absurd rfl hn
  | mk v l r ihl ihr =>
    cases l with
    | null =>
      cases r with
      | null => simp [leafDepths, height, Node.isNull]
      | mk rv rl rr =>
        obtain ⟨r1, r2⟩ := ihr (by simp)
        simp only [leafDepths, Node.isNull, Bool.and_false, Bool.false_eq_true, if_false,
          List.nil_append, List.mem_map]
        simp only [height] at r1 r2 ⊢
        refine ⟨⟨_, r1, by omega⟩, ?_⟩
        rintro d ⟨e, he, rfl⟩
        have := r2 e he
        omega
    | mk lv ll lr =>
      obtain ⟨l1, l2⟩ := ihl (by simp)
      cases r with
      | null =>
        simp only [leafDepths, Node.isNull, Bool.false_and, Bool.false_eq_true, if_false,
          List.append_nil, List.mem_map]
        simp only [height] at l1 l2 ⊢
        refine ⟨⟨_, l1, by omega⟩, ?_⟩
        rintro d ⟨e, he, rfl⟩
        have := l2 e he
        omega
      | mk rv rl rr =>
        obtain ⟨r1, r2⟩ := ihr (by simp)
        simp only [leafDepths, Node.isNull, Bool.false_and, Bool.false_eq_true, if_false,
          List.mem_map, List.mem_append]
        simp only [height] at l1 l2 r1 r2 ⊢
        constructor
        · rcases Nat.le_total (1 + max (height ll) (height lr))
            (1 + max (height rl) (height rr)) with hle | hle
          · exact ⟨_, Or.inr r1, by omega⟩
          · exact ⟨_, Or.inl l1, by omega⟩
        · rintro d ⟨e, he | he, rfl⟩
          · have := l2 e he
            omega
          · have := r2 e he
            omega

theorem get_max_depth_eq {α : Type} (n : Node α) (hh : (height n : Int) < 2 ^ 31) :
    get_max_depth n = height n := by
  induction n with
  | null => rfl
  | mk v l r ihl ihr =>
    simp only [height] at hh
    have el := ihl (by omega)
    have er := ihr (by omega)
    simp only [get_max_depth, el, er, height]
    rw [wrap_int_eq (by omega) (by omega), wrap_int_eq (by omega) (by omega)]
    unfold MAX
    split_ifs <;> omega

theorem get_min_depth_spec {α : Type} (n : Node α) (hn : n ≠ Node.null)
    (hh : (height n : Int) < 2 ^ 31) :
    ∃ m : Nat, get_min_depth n = m ∧ 1 ≤ m ∧ m ≤ height n ∧
      m ∈ leafDepths n ∧ ∀ d ∈ leafDepths n, m ≤ d := by
  induction n with
  | null => exact absurd rfl hn
  | mk v l r ihl ihr =>
    simp only [height] at hh
    have w1 : wrap_int ((0 : Int) + 1) = 1 := by unfold wrap_int; omega
    cases l with
    | null =>
      cases r with
      | null =>
        refine ⟨1, ?_, by omega, by simp [height], by simp [leafDepths, Node.isNull], ?_⟩
        · simp only [get_min_depth, w1, MIN, MAX]
          simp
        · simp [leafDepths, Node.isNull]
      | mk rv rl rr =>
        obtain ⟨m, e, m1, m2, m3, m4⟩ := ihr (by simp) (by omega)
        refine ⟨m + 1, ?_, by omega, by simp only [height] at m2 ⊢; omega, ?_, ?_⟩
        · rw [get_min_depth, e]
          simp only [get_min_depth, w1]
          rw [wrap_int_eq (by omega) (by omega)]
          unfold MIN MAX
          push_cast
          split_ifs <;> omega
        · simp only [leafDepths, Node.isNull, Bool.and_false, Bool.false_eq_true, if_false,
            List.nil_append, List.mem_map]
          exact ⟨m, m3, rfl⟩
        · simp only [leafDepths, Node.isNull, Bool.and_false, Bool.false_eq_true, if_false,
            List.nil_append, List.mem_map]
          rintro d ⟨e1, he, rfl⟩
          have := m4 e1 he
          omega
    | mk lv ll lr =>
      obtain ⟨m, e, m1, m2, m3, m4⟩ := ihl (by simp) (by omega)
      cases r with
      | null =>
        refine ⟨m + 1, ?_, by omega, by simp only [height] at m2 ⊢; omega, ?_, ?_⟩
        · rw [get_min_depth, e]
          simp only [get_min_depth, w1]
          rw [wrap_int_eq (by omega) (by omega)]
          unfold MIN MAX
          push_cast
          split_ifs <;> omega
        · simp only [leafDepths, Node.isNull, Bool.false_and, Bool.false_eq_true, if_false,
            List.append_nil, List.mem_map]
          exact ⟨m, m3, rfl⟩
        · simp only [leafDepths, Node.isNull, Bool.false_and, Bool.false_eq_true, if_false,
            List.append_nil, List.mem_map]
          rintro d ⟨e1, he, rfl⟩
          have := m4 e1 he
          omega
      | mk rv rl rr =>
        obtain ⟨k, f, k1, k2, k3, k4⟩ := ihr (by simp) (by omega)
        have hval : get_min_depth (Node.mk v (Node.mk lv ll lr) (Node.mk rv rl rr))
            = ((min m k + 1 : Nat) : Int) := by
          rw [get_min_depth, e, f]
          rw [wrap_int_eq (by omega) (by omega), wrap_int_eq (by omega) (by omega)]
          unfold MIN MAX
          push_cast
          split_ifs <;> omega
        refine ⟨min m k + 1, hval, by omega, by rw [height]; omega, ?_, ?_⟩
        · simp only [leafDepths, Node.isNull, Bool.false_and, Bool.false_eq_true, if_false,
            List.mem_map, List.mem_append]
          rcases Nat.le_total m k with hle | hle
          · exact ⟨m, Or.inl m3, by omega⟩
          · exact ⟨k, Or.inr k3, by omega⟩
        · simp only [leafDepths, Node.isNull, Bool.false_and, Bool.false_eq_true, if_false,
            List.mem_map, List.mem_append]
          rintro d ⟨e1, he | he, rfl⟩
          · have := m4 e1 he
            omega
          · have := k4 e1 he
            omega

/-- C13. The function `get_maxDepth` returns `-1` when the tree is absent or has no
root.  On a tree with a root (of height below `2 ^ 31`, so that the `int` additions
do not overflow) it returns the number of nodes on the longest path from the root to
a leaf, which is the value of the recursion `depth(null) = 0`,
`depth(node) = 1 + max(depth(left), depth(right))`.  A single-node tree has depth 1
and the tree built by inserting 5, 3, 8, 1, 4, 7, 9 has depth 3. -/
theorem get_maxDepth_spec {α : Type} (b : BST α) :
    get_maxDepth (none : Option (BST α)) = -1 ∧
    (b.root = Node.null → get_maxDepth (some b) = -1) ∧
    (b.root ≠ Node.null → (height b.root : Int) < 2 ^ 31 →
      get_maxDepth (some b) = height b.root ∧
      height b.root ∈ leafDepths b.root ∧ ∀ d ∈ leafDepths b.root, d ≤ height b.root) ∧
    (∀ v, b.root = Node.mk v Node.null Node.null → get_maxDepth (some b) = 1) ∧
    get_maxDepth (buildInts [5, 3, 8, 1, 4, 7, 9]) = 3 := by
  refine ⟨rfl, ?_, ?_, ?_, by decide⟩
  · intro hr
    simp [get_maxDepth, hr, Node.isNull]
  · intro hr hh
    have e : get_maxDepth (some b) = get_max_depth b.root := by
      cases hroot : b.root with
      | null => exact absurd hroot hr
      | mk v l r => simp [get_maxDepth, hroot, Node.isNull]
    obtain ⟨h1, h2⟩ := leafDepths_height b.root hr
    exact ⟨e.trans (get_max_depth_eq b.root hh), h1, fun d hd => (h2 d hd).2⟩
  · intro v hr
    simp only [get_maxDepth, hr, Node.isNull, Bool.false_eq_true, if_false, get_max_depth]
    decide

theorem get_maxDepth_spec_witness :
    sampleTree.root ≠ Node.null ∧ (height sampleTree.root : Int) < 2 ^ 31 ∧
    height sampleTree.root = 3 ∧ get_maxDepth (some sampleTree) = 3 :=
  ⟨by decide, by decide, by decide,
    ((get_maxDepth_spec sampleTree).2.2.1 (by decide) (by decide)).1.trans (by decide)⟩

/-- C14. The function `get_minDepth` returns `-1` when the tree is absent or has no
root.  On a tree with a root (of height below `2 ^ 31`) it returns the minimum, over
all leaves, of the number of nodes on the path from the root to the leaf; the path to
a missing child of a node that has another child is not counted, so a root with a
single child that is a leaf has minimum depth 2. -/
theorem get_minDepth_spec {α : Type} (b : BST α) :
    get_minDepth (none : Option (BST α)) = -1 ∧
    (b.root = Node.null → get_minDepth (some b) = -1) ∧
    (b.root ≠ Node.null → (height b.root : Int) < 2 ^ 31 →
      ∃ m : Nat, get_minDepth (some b) = m ∧
        m ∈ leafDepths b.root ∧ ∀ d ∈ leafDepths b.root, m ≤ d) ∧
    (∀ v w, b.root = Node.mk v (Node.mk w Node.null Node.null) Node.null →
      get_minDepth (some b) = 2) ∧
    (∀ v w, b.root = Node.mk v Node.null (Node.mk w Node.null Node.null) →
      get_minDepth (some b) = 2) := by
  refine ⟨rfl, ?_, ?_, ?_, ?_⟩
  · intro hr
    simp [get_minDepth, hr, Node.isNull]
  · intro hr hh
    have e : get_minDepth (some b) = get_min_depth b.root := by
      cases hroot : b.root with
      | null => exact absurd hroot hr
      | mk v l r => simp [get_minDepth, hroot, Node.isNull]
    obtain ⟨m, e1, -, -, m3, m4⟩ := get_min_depth_spec b.root hr hh
    exact ⟨m, e.trans e1, m3, m4⟩
  · intro v w hr
    simp only [get_minDepth, hr, Node.isNull, Bool.false_eq_true, if_false, get_min_depth]
    decide
  · intro v w hr
    simp only [get_minDepth, hr, Node.isNull, Bool.false_eq_true, if_false, get_min_depth]
    decide

theorem get_minDepth_spec_witness :
    deepViolation.root ≠ Node.null ∧ leafDepths deepViolation.root = [3, 2] ∧
    ∃ m : Nat, get_minDepth (some deepViolation) = m ∧
      m ∈ leafDepths deepViolation.root ∧ ∀ d ∈ leafDepths deepViolation.root, m ≤ d :=
  ⟨by decide, by decide, (get_minDepth_spec deepViolation).2.2.1 (by decide) (by decide)⟩

/-- C15, the claim as stated fails: on the tree built by inserting 5, 3, 8, 1, 4, 7, 9
`get_minDepth` does not return 2. -/
theorem get_minDepth_example_counterexample :
    get_minDepth (buildInts [5, 3, 8, 1, 4, 7, 9]) ≠ 2 := by
  decide

/-- C15, amended. After inserting 5, 3, 8, 1, 4, 7, 9 in that order into an empty tree
with the ascending integer comparator, `get_minDepth` returns 3: the tree is perfect,
each of its four leaves lies on a path of three nodes. -/
theorem get_minDepth_example :
    get_minDepth (buildInts [5, 3, 8, 1, 4, 7, 9]) = 3 ∧
    buildInts [5, 3, 8, 1, 4, 7, 9] = some sampleTree ∧
    leafDepths sampleTree.root = [3, 3, 3, 3] :=
  ⟨by decide, rfl, by decide⟩

/-! ## Shape after removal -/

theorem find_key_loop_search {α : Type} (compare : α → α → Int) (n : Node α) (key d : α)
    (l r : Node α) (hf : find_key_loop compare n key = Node.mk d l r) :
    search_loop compare n key = true ∧ ¬ compare key d < 0 ∧ ¬ compare key d > 0 := by
  induction n with
  | null => simp [find_key_loop] at hf
  | mk nd nl nr ihl ihr =>
    simp only [find_key_loop] at hf
    simp only [search_loop]
    by_cases c1 : compare key nd < 0
    · rw [if_pos c1] at hf ⊢
      exact ihl hf
    · rw [if_neg c1] at hf ⊢
      by_cases c2 : compare key nd > 0
      · rw [if_pos c2] at hf ⊢
        exact ihr hf
      · rw [if_neg c2] at hf ⊢
        cases hf
        exact ⟨rfl, c1, c2⟩

theorem destroy_leftmost {α : Type} (bst : BST α) (h : StrictTotalOrder bst.compare)
    (r : Node α) (ho : bst_ordered bst.compare r) (m : α) (mr : Node α)
    (hmin : _find_min_node r = Node.mk m Node.null mr) :
    _destroy_node bst r m = (removeLeftmost r, { bst with size := size_dec bst.size }) := by
  induction r with
  | null => simp [_find_min_node] at hmin
  | mk rd rl rr ihl _ =>
    obtain ⟨h1, -, h3, -⟩ := ho
    cases rl with
    | null =>
      simp only [_find_min_node, Node.mk.injEq] at hmin
      obtain ⟨rfl, -, -⟩ := hmin
      have c0 := h.refl rd
      simp only [_destroy_node, removeLeftmost]
      rw [if_neg (by omega), if_neg (by omega)]
      cases rr with
      | null => simp [Node.isNull]
      | mk a b c => simp [Node.isNull]
    | mk ld ll lr =>
      rw [_find_min_node] at hmin
      obtain ⟨m2, mr2, rest, e1, e2⟩ := find_min_spec ld ll lr
      have hm : m = m2 := by
        rw [e1] at hmin
        simp only [Node.mk.injEq] at hmin
        exact hmin.1.symm
      have hlt : bst.compare m rd < 0 := h1 m (by rw [e2, hm]; simp)
      rw [_destroy_node, removeLeftmost]
      simp only [if_pos hlt]
      rw [ihl h3 hmin]

theorem destroy_two_children {α : Type} (bst : BST α) (h : StrictTotalOrder bst.compare)
    (n : Node α) (ho : bst_ordered bst.compare n) (key d : α) (l r : Node α)
    (hf : find_key_loop bst.compare n key = Node.mk d l r)
    (hl : l ≠ Node.null) (hr : r ≠ Node.null) :
    ∃ m mr, _find_min_node r = Node.mk m Node.null mr ∧
      _destroy_node bst n key =
        (replaceAtKey bst.compare n key (Node.mk m l (removeLeftmost r)),
          { bst with size := size_dec bst.size }) := by
  induction n with
  | null => simp [find_key_loop] at hf
  | mk nd nl nr ihl ihr =>
    obtain ⟨-, -, h3, h4⟩ := ho
    simp only [find_key_loop] at hf
    simp only [_destroy_node, replaceAtKey]
    by_cases c1 : bst.compare key nd < 0
    · rw [if_pos c1] at hf
      obtain ⟨m, mr, e1, e2⟩ := ihl h3 hf
      exact ⟨m, mr, e1, by rw [if_pos c1, if_pos c1, e2]⟩
    · rw [if_neg c1] at hf
      by_cases c2 : bst.compare key nd > 0
      · rw [if_pos c2] at hf
        obtain ⟨m, mr, e1, e2⟩ := ihr h4 hf
        exact ⟨m, mr, e1, by rw [if_neg c1, if_neg c1, if_pos c2, if_pos c2, e2]⟩
      · rw [if_neg c2] at hf
        cases hf
        cases l with
        | null => exact absurd rfl hl
        | mk ld ll lr =>
          cases r with
          | null => exact absurd rfl hr
          | mk rd rl rr =>
            obtain ⟨m, mr, rest, e1, -⟩ := find_min_spec rd rl rr
            refine ⟨m, mr, e1, ?_⟩
            rw [if_neg c1, if_neg c1, if_neg c2, if_neg c2]
            simp only [Node.isNull, Bool.and_self, Bool.false_eq_true, if_false, e1]
            rw [destroy_leftmost bst h _ h4 m mr e1]

/-- C16. On a tree satisfying the order invariant (comparator a strict total order),
removing the key of a node that has both children leaves every other node in place,
keeps the left subtree of that node, replaces its value by the minimum of its right
subtree and its right subtree by the old one without its leftmost node (whose right
child takes its place); the key is not found afterwards. -/
theorem remove_two_children {α : Type} [DecidableEq α] (b : BST α) (key d : α)
    (l r : Node α) (hcmp : StrictTotalOrder b.compare)
    (hord : bst_ordered b.compare b.root)
    (hfind : find_key_loop b.compare b.root key = Node.mk d l r)
    (hl : l ≠ Node.null) (hr : r ≠ Node.null) :
    ∃ m, (inorder r).head? = some m ∧ (∀ x ∈ inorder r, b.compare m x ≤ 0) ∧
      ∃ b1, (bst_remove (some b) (some key)).2 = some b1 ∧
        b1.root = replaceAtKey b.compare b.root key (Node.mk m l (removeLeftmost r)) ∧
        bst_search (some b1) (some key) = false := by
  obtain ⟨m, mr, e1, e2⟩ := destroy_two_children b hcmp b.root hord key d l r hfind hl hr
  have hs := (find_key_loop_search b.compare b.root key d l r hfind).1
  have hmem : key ∈ inorder b.root := (search_loop_iff_mem hcmp hord key).1 hs
  -- the node found is a subtree of an ordered tree, hence ordered
  have hsub : ∀ n : Node α, bst_ordered b.compare n →
      find_key_loop b.compare n key = Node.mk d l r → bst_ordered b.compare r := by
    intro n
    induction n with
    | null => intro _ hf; simp [find_key_loop] at hf
    | mk nd nl nr ihl ihr =>
      intro ho hf
      obtain ⟨-, -, h3, h4⟩ := ho
      simp only [find_key_loop] at hf
      by_cases c1 : b.compare key nd < 0
      · rw [if_pos c1] at hf; exact ihl h3 hf
      · rw [if_neg c1] at hf
        by_cases c2 : b.compare key nd > 0
        · rw [if_pos c2] at hf; exact ihr h4 hf
        · rw [if_neg c2] at hf
          cases hf
          exact h4
  have hor := hsub b.root hord hfind
  have hhead : (inorder r).head? = some m ∧ ∀ x ∈ inorder r, b.compare m x ≤ 0 := by
    cases r with
    | null => exact absurd rfl hr
    | mk rd rl rr =>
      obtain ⟨m2, mr2, rest, f1, f2⟩ := find_min_spec rd rl rr
      have hm : m2 = m := by
        rw [f1] at e1
        simp only [Node.mk.injEq] at e1
        exact e1.1
      subst hm
      have hp := (bst_ordered_iff_pairwise hcmp _).1 hor
      rw [f2] at hp ⊢
      refine ⟨rfl, ?_⟩
      intro x hx
      rcases List.mem_cons.1 hx with rfl | hx
      · exact le_of_eq (hcmp.refl _)
      · exact le_of_lt ((List.pairwise_cons.1 hp).1 x hx)
  refine ⟨m, hhead.1, hhead.2, { (_destroy_node b b.root key).2 with
    root := (_destroy_node b b.root key).1 }, rfl, ?_, ?_⟩
  · show (_destroy_node b b.root key).1 = _
    rw [e2]
  · show search_loop (_destroy_node b b.root key).2.compare (_destroy_node b b.root key).1 key
      = false
    rw [destroy_state_fields b hcmp b.root hord key]
    have ho1 := destroy_ordered b hcmp b.root hord key
    apply (not_mem_iff_search_false hcmp ho1 key).1
    rw [(destroy_found b hcmp b.root hord key hmem).2.1]
    exact fun hx => ((inorder_nodup hcmp hord).mem_erase_iff.1 hx).1 rfl

theorem remove_two_children_witness :
    buildInts [5, 3, 8, 1, 4, 7, 9] = some sampleTree ∧
    find_key_loop cmp_int sampleTree.root 5 = sampleTree.root ∧
    ∃ b1, (bst_remove (some sampleTree) (some 5)).2 = some b1 ∧
      b1.root = Node.mk 7 (Node.mk 3 (Node.mk 1 Node.null Node.null)
          (Node.mk 4 Node.null Node.null))
        (Node.mk 8 Node.null (Node.mk 9 Node.null Node.null)) ∧
      bst_search (some b1) (some 5) = false :=
  ⟨rfl, by decide,
    match remove_two_children sampleTree 5 5
      (Node.mk 3 (Node.mk 1 Node.null Node.null) (Node.mk 4 Node.null Node.null))
      (Node.mk 8 (Node.mk 7 Node.null Node.null) (Node.mk 9 Node.null Node.null))
      cmp_int_strictTotalOrder (by decide) (by decide) (by decide) (by decide) with
    | ⟨m, hm, _, b1, h1, h2, h3⟩ =>
      ⟨b1, h1, by
        have e : m = 7 := (Option.some.inj hm).symm
        rw [h2, e]; decide, h3⟩⟩

/-! ## Insert followed by remove -/

theorem insert_fresh_leaf {α : Type} (bst : BST α) (hrefl : ∀ a, bst.compare a a = 0)
    (n : Node α) (key : α) (hs : search_loop bst.compare n key = false) :
    find_key_loop bst.compare (_insert_recursive true bst n key).1 key
      = Node.mk key Node.null Node.null := by
  induction n with
  | null =>
    have c0 := hrefl key
    rw [insert_null]
    simp only [find_key_loop]
    rw [if_neg (by omega), if_neg (by omega)]
  | mk d l r ihl ihr =>
    simp only [search_loop] at hs
    simp only [_insert_recursive]
    by_cases c1 : bst.compare key d < 0
    · rw [if_pos c1] at hs
      rw [if_pos c1, find_key_loop]
      simp only [if_pos c1]
      exact ihl hs
    · rw [if_neg c1] at hs
      rw [if_neg c1]
      by_cases c2 : bst.compare key d > 0
      · rw [if_pos c2] at hs
        rw [if_pos c2, find_key_loop]
        simp only [if_neg c1, if_pos c2]
        exact ihr hs
      · rw [if_neg c2] at hs
        exact absurd hs (by simp)

theorem insert_then_destroy {α : Type} (bst bst2 : BST α)
    (hc : bst2.compare = bst.compare) (hrefl : ∀ a, bst.compare a a = 0)
    (n : Node α) (key : α) (hs : search_loop bst.compare n key = false) :
    _destroy_node bst2 (_insert_recursive true bst n key).1 key
      = (n, { bst2 with size := size_dec bst2.size }) := by
  induction n with
  | null =>
    have c0 : bst2.compare key key = 0 := by rw [hc]; exact hrefl key
    rw [insert_null, _destroy_node]
    simp only []
    rw [if_neg (by omega), if_neg (by omega)]
    simp [Node.isNull]
  | mk d l r ihl ihr =>
    simp only [search_loop] at hs
    simp only [_insert_recursive]
    by_cases c1 : bst.compare key d < 0
    · rw [if_pos c1] at hs
      have d1 : bst2.compare key d < 0 := by rw [hc]; exact c1
      rw [if_pos c1, _destroy_node]
      simp only [if_pos d1]
      rw [ihl hs]
    · rw [if_neg c1] at hs
      rw [if_neg c1]
      by_cases c2 : bst.compare key d > 0
      · rw [if_pos c2] at hs
        have d1 : ¬ bst2.compare key d < 0 := by rw [hc]; exact c1
        have d2 : bst2.compare key d > 0 := by rw [hc]; exact c2
        rw [if_pos c2, _destroy_node]
        simp only [if_neg d1, if_pos d2]
        rw [ihr hs]
      · rw [if_neg c2] at hs
        exact absurd hs (by simp)

theorem size_dec_inc {n : Nat} (h : n + 1 < SIZE_MOD) : size_dec (size_inc n) = n := by
  unfold size_dec size_inc SIZE_MOD at *
  omega

/-- C19. On a tree satisfying the order invariant (comparator a strict total order,
size counter below its maximum, allocation succeeding), inserting a key that is not
in the tree and then removing it returns true both times and gives back exactly the
original record: the key is attached as a leaf and removed by unlinking that leaf. -/
theorem insert_remove_identity {α : Type} (b : BST α) (key : α)
    (hcmp : StrictTotalOrder b.compare) (hord : bst_ordered b.compare b.root)
    (hfresh : key ∉ inorder b.root) (hsize : b.size + 1 < SIZE_MOD) :
    ∃ b1, bst_insert true (some b) (some key) = (true, some b1) ∧
      find_key_loop b1.compare b1.root key = Node.mk key Node.null Node.null ∧
      bst_remove (some b1) (some key) = (true, some b) := by
  have hs := (not_mem_iff_search_false hcmp hord key).1 hfresh
  have e := insert_fresh_state b b.root key hs
  have hb1 : ({ (_insert_recursive true b b.root key).2 with
      root := (_insert_recursive true b b.root key).1 } : BST α) =
        { root := (_insert_recursive true b b.root key).1, element_size := b.element_size,
          size := size_inc b.size, compare := b.compare } := by
    rw [e]
  refine ⟨{ root := (_insert_recursive true b b.root key).1, element_size := b.element_size,
            size := size_inc b.size, compare := b.compare }, ?_, ?_, ?_⟩
  · have hgt : size_inc b.size > b.size := by rw [size_inc_eq hsize]; omega
    simp only [bst_insert, hb1, Prod.mk.injEq, decide_eq_true_eq, and_true]
    rw [e]
    exact hgt
  · exact insert_fresh_leaf b hcmp.refl b.root key hs
  · have hd := insert_then_destroy b
      { root := (_insert_recursive true b b.root key).1, element_size := b.element_size,
        size := size_inc b.size, compare := b.compare } rfl hcmp.refl b.root key hs
    have hgt : b.size < size_inc b.size := by rw [size_inc_eq hsize]; omega
    simp only [bst_remove, hd, size_dec_inc hsize, Prod.mk.injEq, decide_eq_true_eq]
    exact ⟨hgt, trivial⟩

theorem insert_remove_identity_witness :
    bst_ordered cmp_int sampleTree.root ∧ (6 : Int) ∉ inorder sampleTree.root ∧
    ∃ b1, bst_insert true (some sampleTree) (some 6) = (true, some b1) ∧
      bst_remove (some b1) (some 6) = (true, some sampleTree) :=
  ⟨by decide, by decide,
    match insert_remove_identity sampleTree 6 cmp_int_strictTotalOrder (by decide)
      (by decide) (by decide) with
    | ⟨b1, h1, _, h3⟩ => ⟨b1, h1, h3⟩⟩

/-! ## The size counter and the root, for any comparator -/

theorem insert_count {α : Type} (alloc : Bool) (bst : BST α) (n : Node α) (v : α) :
    _insert_recursive alloc bst n v = (n, bst) ∨
    ((_insert_recursive alloc bst n v).2 = { bst with size := size_inc bst.size } ∧
      numNodes (_insert_recursive alloc bst n v).1 = numNodes n + 1) := by
  induction n with
  | null =>
    cases alloc
    · left; simp [_insert_recursive, _create_node, Node.isNull]
    · right; simp [_insert_recursive, _create_node, Node.isNull, numNodes]
  | mk d l r ihl ihr =>
    simp only [_insert_recursive]
    by_cases c1 : bst.compare v d < 0
    · simp only [if_pos c1]
      rcases ihl with e | ⟨e1, e2⟩
      · left; rw [e]
      · right
        refine ⟨e1, ?_⟩
        simp only [numNodes, e2]; omega
    · simp only [if_neg c1]
      by_cases c2 : bst.compare v d > 0
      · simp only [if_pos c2]
        rcases ihr with e | ⟨e1, e2⟩
        · left; rw [e]
        · right
          refine ⟨e1, ?_⟩
          simp only [numNodes, e2]; omega
      · simp only [if_neg c2]
        exact Or.inl trivial

theorem destroy_count {α : Type} (bst : BST α) (n : Node α) :
    ∀ key : α,
    ((_destroy_node bst n key).2 = bst ∧
      numNodes (_destroy_node bst n key).1 = numNodes n) ∨
    ((_destroy_node bst n key).2 = { bst with size := size_dec bst.size } ∧
      numNodes (_destroy_node bst n key).1 + 1 = numNodes n) := by
  induction n with
  | null => intro key; left; exact ⟨rfl, rfl⟩
  | mk d l r ihl ihr =>
    intro key
    rw [_destroy_node]
    by_cases c1 : bst.compare key d < 0
    · simp only [if_pos c1]
      rcases ihl key with ⟨e1, e2⟩ | ⟨e1, e2⟩
      · left; exact ⟨e1, by simp only [numNodes, e2]⟩
      · right; exact ⟨e1, by simp only [numNodes]; omega⟩
    · simp only [if_neg c1]
      by_cases c2 : bst.compare key d > 0
      · simp only [if_pos c2]
        rcases ihr key with ⟨e1, e2⟩ | ⟨e1, e2⟩
        · left; exact ⟨e1, by simp only [numNodes, e2]⟩
        · right; exact ⟨e1, by simp only [numNodes]; omega⟩
      · simp only [if_neg c2]
        cases l with
        | null =>
          cases r with
          | null => right; simp [Node.isNull, numNodes]
          | mk rd rl rr => right; simp [Node.isNull, numNodes]
        | mk ld ll lr =>
          cases r with
          | null => right; simp [Node.isNull, numNodes]
          | mk rd rl rr =>
            obtain ⟨m, mr, rest, f1, -⟩ := find_min_spec rd rl rr
            simp only [Node.isNull, Bool.and_self, Bool.false_eq_true, if_false, f1]
            rcases ihr m with ⟨e1, e2⟩ | ⟨e1, e2⟩
            · left; exact ⟨e1, by simp only [numNodes] at e2 ⊢; omega⟩
            · right; exact ⟨e1, by simp only [numNodes] at e2 ⊢; omega⟩

/-- One call keeps the size counter equal to the node count modulo `2 ^ 64`, whatever
the comparator and whether or not the allocation succeeds. -/
theorem applyOp_counts {α : Type} (b : BST α) (op : Op α)
    (hinv : b.size = numNodes b.root % SIZE_MOD) :
    ∃ b1, applyOp (some b) op = some b1 ∧ b1.size = numNodes b1.root % SIZE_MOD ∧
      numNodes b1.root ≤ numNodes b.root + 1 := by
  cases op with
  | insert v =>
    refine ⟨{ (_insert_recursive true b b.root v).2 with
      root := (_insert_recursive true b b.root v).1 }, rfl, ?_, ?_⟩
    · show (_insert_recursive true b b.root v).2.size
        = numNodes (_insert_recursive true b b.root v).1 % SIZE_MOD
      rcases insert_count true b b.root v with e | ⟨e1, e2⟩
      · rw [e]; exact hinv
      · rw [e1, e2]
        show size_inc b.size = _
        rw [hinv]
        unfold size_inc SIZE_MOD
        omega
    · show numNodes (_insert_recursive true b b.root v).1 ≤ _
      rcases insert_count true b b.root v with e | ⟨-, e2⟩
      · rw [e]; exact Nat.le_succ _
      · rw [e2]
  | remove v =>
    refine ⟨{ (_destroy_node b b.root v).2 with
      root := (_destroy_node b b.root v).1 }, rfl, ?_, ?_⟩
    · show (_destroy_node b b.root v).2.size = numNodes (_destroy_node b b.root v).1 % SIZE_MOD
      rcases destroy_count b b.root v with ⟨e1, e2⟩ | ⟨e1, e2⟩
      · rw [e1, e2]; exact hinv
      · rw [e1]
        show size_dec b.size = _
        rw [hinv, ← e2]
        unfold size_dec SIZE_MOD
        omega
    · show numNodes (_destroy_node b b.root v).1 ≤ _
      rcases destroy_count b b.root v with ⟨-, e2⟩ | ⟨-, e2⟩ <;> omega

theorem runOps_counts {α : Type} (ops : List (Op α)) :
    ∀ b : BST α, b.size = numNodes b.root % SIZE_MOD →
    ∃ b1, runOps (some b) ops = some b1 ∧ b1.size = numNodes b1.root % SIZE_MOD ∧
      numNodes b1.root ≤ numNodes b.root + ops.length := by
  induction ops with
  | nil => intro b h; exact ⟨b, rfl, h, Nat.le_refl _⟩
  | cons op ops ih =>
    intro b h
    obtain ⟨b1, e1, h1, n1⟩ := applyOp_counts b op h
    obtain ⟨b2, e2, h2, n2⟩ := ih b1 h1
    refine ⟨b2, ?_, h2, ?_⟩
    · rw [runOps, List.foldl_cons, e1]; exact e2
    · simp only [List.length_cons]; omega

theorem bst_min_none_iff {α : Type} (b : BST α) :
    (bst_min (some b) = none ↔ b.root = Node.null) ∧
    (bst_max (some b) = none ↔ b.root = Node.null) := by
  cases hr : b.root with
  | null => simp [bst_min, bst_max, hr, Node.isNull]
  | mk d l r =>
    obtain ⟨m, mr, rest, e1, -⟩ := find_min_spec d l r
    obtain ⟨m2, ml, rest2, e2, -⟩ := find_max_spec d l r
    simp [bst_min, bst_max, hr, Node.isNull, e1, e2, Node.data?]

/-- C18. In every state reached from `bst_create` by fewer than `2 ^ 64` calls of
`bst_insert` and `bst_remove`, for any comparator, the size counter is zero exactly
when the root is absent.  Hence `bst_empty`, which tests the size, is true exactly
when `bst_min` and `bst_max` return an absent result and (height below `2 ^ 31`)
exactly when `get_maxDepth` and `get_minDepth` return `-1`, which all test the
root. -/
theorem emptiness_tests_agree {α : Type} (compare : α → α → Int) (element_size : Nat)
    (hes : element_size ≠ 0) (ops : List (Op α)) (hlen : ops.length < SIZE_MOD) :
    ∃ b, runOps (bst_create true element_size (some compare)) ops = some b ∧
      (b.size = 0 ↔ b.root = Node.null) ∧
      (bst_empty (some b) = true ↔ bst_min (some b) = none) ∧
      (bst_empty (some b) = true ↔ bst_max (some b) = none) ∧
      ((height b.root : Int) < 2 ^ 31 →
        (bst_empty (some b) = true ↔ get_maxDepth (some b) = -1) ∧
        (bst_empty (some b) = true ↔ get_minDepth (some b) = -1)) := by
  have hc : bst_create true element_size (some compare) =
      some { root := .null, element_size := element_size, size := 0, compare := compare } := by
    simp [bst_create, hes]
  obtain ⟨b, e, hinv, hn⟩ := runOps_counts ops
    { root := .null, element_size := element_size, size := 0, compare := compare } rfl
  have hcount : b.size = numNodes b.root := by
    rw [hinv]
    apply Nat.mod_eq_of_lt
    simp only [numNodes] at hn
    omega
  have hroot : b.size = 0 ↔ b.root = Node.null := by
    rw [hcount]
    cases hr : b.root with
    | null => simp [numNodes]
    | mk d l r => simp [numNodes]
  have hempty : bst_empty (some b) = true ↔ b.root = Node.null := by
    simp only [bst_empty, decide_eq_true_eq]
    exact hroot
  refine ⟨b, by rw [hc]; exact e, hroot, ?_, ?_, ?_⟩
  · rw [hempty, (bst_min_none_iff b).1]
  · rw [hempty, (bst_min_none_iff b).2]
  · intro hh
    rw [hempty]
    constructor
    · constructor
      · intro hr
        simp [get_maxDepth, hr, Node.isNull]
      · intro hd
        by_contra hr
        have e1 : get_maxDepth (some b) = get_max_depth b.root := by
          cases hroot2 : b.root with
          | null => exact absurd hroot2 hr
          | mk v l r => simp [get_maxDepth, hroot2, Node.isNull]
        rw [e1, get_max_depth_eq b.root hh] at hd
        omega
    · constructor
      · intro hr
        simp [get_minDepth, hr, Node.isNull]
      · intro hd
        by_contra hr
        have e1 : get_minDepth (some b) = get_min_depth b.root := by
          cases hroot2 : b.root with
          | null => exact absurd hroot2 hr
          | mk v l r => simp [get_minDepth, hroot2, Node.isNull]
        obtain ⟨m, e2, -⟩ := get_min_depth_spec b.root hr hh
        rw [e1, e2] at hd
        omega

theorem emptiness_tests_agree_witness :
    ∃ b, runOps (bst_create true 4 (some cmp_int))
        [Op.insert 5, Op.insert 3, Op.remove 5, Op.remove 3] = some b ∧
      (b.size = 0 ↔ b.root = Node.null) ∧
      (bst_empty (some b) = true ↔ bst_min (some b) = none) :=
  match emptiness_tests_agree cmp_int 4 (by decide)
    [Op.insert 5, Op.insert 3, Op.remove 5, Op.remove 3] (by decide) with
  | ⟨b, h1, h2, h3, _⟩ => ⟨b, h1, h2, h3⟩

end BstC
